import Mathlib

/-!
Shallow embedding of `src/libmbcommon/src/file_util.cpp` (DualBootPatcher):
retry-aware bulk transfer (`file_read_fully`, `file_write_fully`), bulk
discard (`file_read_discard`), sliding-window pattern search
(`file_search`) and overlap-safe region move (`file_move`).

Machine integers (`size_t`, `uint64_t`) are modelled as `Nat`; the
overflow guards of the source compare against `2 ^ 64 - 1` explicitly.
-/

namespace MbCommon

/-- Modelled from the spec: the totally ordered status code of §3/§6 of
the specification (`FATAL`, `FAILED`, `WARN`, `OK` from most to least
severe, `RETRY` compared only by equality, `UNSUPPORTED` a failure
level); the concrete enum lives in `mbcommon/file.h`, which is outside
the supplied sources. -/
inductive FileStatus
  | FATAL | FAILED | UNSUPPORTED | WARN | RETRY | OK
deriving DecidableEq, Repr

/-- Severity rank backing the `ret < FileStatus::OK` comparisons of the
source: every failure level is negative and `OK` is zero.  `RETRY` is
ranked least severe per §3 of the specification; the source only ever
compares it by equality. -/
def FileStatus.toInt : FileStatus → Int
  | .OK => 0
  | .RETRY => 1
  | .WARN => -2
  | .FAILED => -3
  | .FATAL => -4
  | .UNSUPPORTED => -5

/-- Modelled from the spec: error kinds recorded via `set_error` (§7).
Human-readable messages are elided; only the structured kind is kept. -/
inductive FileError
  | INVALID_ARGUMENT | INTERNAL_ERROR
deriving DecidableEq, Repr

/-- Modelled from the spec: scripted behaviour of the next single-shot
`read`/`write` call of the handle (§6): `retry` transfers nothing and
asks for the identical call to be reissued, `err s` fails with status
`s`, `ok cap` transfers up to `cap` bytes (`cap = 0` meaning no extra
per-call limit). -/
inductive Resp
  | retry
  | err (s : FileStatus)
  | ok (cap : Nat)
deriving DecidableEq, Repr

/-- Modelled from the spec: the abstract file handle of §3/§6 — byte
content, current position, seek capability, a finite script driving the
behaviour of the primitive calls, and the error kind recorded by
`set_error`.  Once the script is exhausted every further call transfers
`min(requested, available)` bytes, so a conforming handle returns zero
bytes only at end of file. -/
structure File where
  data : List Nat
  pos : Nat
  seekable : Bool := true
  script : List Resp := []
  error : Option FileError := none
deriving DecidableEq, Repr

/-- Byte splice of a positioned write: `buf` replaces the content at
`[pos, pos + buf.length)`, zero-filling the gap when `pos` lies past the
end of the file; a zero-length write changes nothing. -/
def writeAt (d : List Nat) (pos : Nat) (buf : List Nat) : List Nat :=
  if buf = [] then d
  else (d ++ List.replicate (pos - d.length) 0).take pos ++ buf ++ d.drop (pos + buf.length)

/-- Modelled from the spec: single-shot read of at most `maxLen` bytes
(§6), returning status, transferred bytes and the updated handle. -/
def File.read (f : File) (maxLen : Nat) : FileStatus × List Nat × File :=
  match f.script with
  | .retry :: rest => (.RETRY, [], { f with script := rest })
  | .err s :: rest => (s, [], { f with script := rest })
  | .ok cap :: rest =>
      let m := if cap = 0 then maxLen else min maxLen cap
      let bytes := (f.data.drop f.pos).take m
      (.OK, bytes, { f with pos := f.pos + bytes.length, script := rest })
  | [] =>
      let bytes := (f.data.drop f.pos).take maxLen
      (.OK, bytes, { f with pos := f.pos + bytes.length })

/-- Modelled from the spec: single-shot write of `buf` (§6), returning
status, the number of bytes transferred and the updated handle. -/
def File.write (f : File) (buf : List Nat) : FileStatus × Nat × File :=
  match f.script with
  | .retry :: rest => (.RETRY, 0, { f with script := rest })
  | .err s :: rest => (s, 0, { f with script := rest })
  | .ok cap :: rest =>
      let m := if cap = 0 then buf.length else min buf.length cap
      let bytes := buf.take m
      (.OK, bytes.length,
        { f with data := writeAt f.data f.pos bytes, pos := f.pos + bytes.length,
                 script := rest })
  | [] =>
      (.OK, buf.length,
        { f with data := writeAt f.data f.pos buf, pos := f.pos + buf.length })

/-- Modelled from the spec: absolute seek (§6); `UNSUPPORTED` when the
handle cannot seek, leaving the position untouched. -/
def File.seek (f : File) (off : Nat) : FileStatus × File :=
  if f.seekable then (.OK, { f with pos := off }) else (.UNSUPPORTED, f)

/-- Modelled from the spec: `set_error` records the structured error
kind on the handle (§6). -/
def File.set_error (f : File) (e : FileError) : File := { f with error := some e }

theorem read_script_le {f : File} {k : Nat} {st : FileStatus} {bytes : List Nat}
    {f' : File} (hres : f.read k = (st, bytes, f')) :
    f'.script.length ≤ f.script.length := by
  unfold File.read at hres
  rcases hs : f.script with _ | ⟨r, rest⟩ <;> rw [hs] at hres
  · simp only [Prod.mk.injEq] at hres
    rw [← hres.2.2]
  · cases r <;> simp only [Prod.mk.injEq] at hres <;> rw [← hres.2.2] <;> simp [hs]

theorem read_retry_script {f : File} {k : Nat} {st : FileStatus} {bytes : List Nat}
    {f' : File} (hres : f.read k = (st, bytes, f')) (h : st = .RETRY) :
    f'.script.length < f.script.length := by
  subst h
  unfold File.read at hres
  rcases hs : f.script with _ | ⟨r, rest⟩ <;> rw [hs] at hres
  · simp only [Prod.mk.injEq] at hres
    exact absurd hres.1 (by simp)
  · cases r <;> simp only [Prod.mk.injEq] at hres
    · rw [← hres.2.2]
      simp [hs]
    · rw [← hres.2.2]
      simp [hs]
    · exact absurd hres.1 (by simp)

theorem read_bytes_le {f : File} {k : Nat} {st : FileStatus} {bytes : List Nat}
    {f' : File} (hres : f.read k = (st, bytes, f')) :
    bytes.length ≤ k := by
  unfold File.read at hres
  rcases hs : f.script with _ | ⟨r, rest⟩ <;> rw [hs] at hres
  · simp only [Prod.mk.injEq] at hres
    rw [← hres.2.1]
    simp [List.length_take]
  · cases r <;> simp only [Prod.mk.injEq] at hres <;> rw [← hres.2.1]
    · simp
    · simp
    · rename_i cap
      by_cases hc : cap = 0 <;> simp [hc, List.length_take] <;> omega

/-- Loop of `file_read_fully` (file_util.cpp:81-104): accumulate reads
until `size` bytes are gathered, absorbing `RETRY`, stopping on errors
or on a zero-byte read (end of file). -/
def file_read_fully_go (f : File) (size : Nat) (acc : List Nat) :
    FileStatus × List Nat × File :=
  if _hacc : acc.length < size then
    match hres : f.read (size - acc.length) with
    | (st, bytes, f') =>
      if hr : st = .RETRY then file_read_fully_go f' size acc
      else if st.toInt < 0 then (st, acc, f')
      else if _hb : bytes.length = 0 then (.OK, acc, f')
      else file_read_fully_go f' size (acc ++ bytes)
  else (.OK, acc, f)
termination_by f.script.length + (size - acc.length)
decreasing_by
  · have := read_retry_script hres hr
    omega
  · have h1 := read_script_le hres
    have h2 := read_bytes_le hres
    simp only [List.length_append]
    omega

/-- `file_read_fully` (file_util.cpp:81): repeated reads until the
requested size is transferred or end of file is reached. -/
def file_read_fully (f : File) (size : Nat) : FileStatus × List Nat × File :=
  file_read_fully_go f size []

theorem write_script_le {f : File} {buf : List Nat} {st : FileStatus} {n : Nat}
    {f' : File} (hres : f.write buf = (st, n, f')) :
    f'.script.length ≤ f.script.length := by
  unfold File.write at hres
  rcases hs : f.script with _ | ⟨r, rest⟩ <;> rw [hs] at hres
  · simp only [Prod.mk.injEq] at hres
    rw [← hres.2.2]
  · cases r <;> simp only [Prod.mk.injEq] at hres <;> rw [← hres.2.2] <;> simp [hs]

theorem write_retry_script {f : File} {buf : List Nat} {st : FileStatus} {n : Nat}
    {f' : File} (hres : f.write buf = (st, n, f')) (h : st = .RETRY) :
    f'.script.length < f.script.length := by
  subst h
  unfold File.write at hres
  rcases hs : f.script with _ | ⟨r, rest⟩ <;> rw [hs] at hres
  · simp only [Prod.mk.injEq] at hres
    exact absurd hres.1 (by simp)
  · cases r <;> simp only [Prod.mk.injEq] at hres
    · rw [← hres.2.2]
      simp [hs]
    · rw [← hres.2.2]
      simp [hs]
    · exact absurd hres.1 (by simp)

theorem write_count_le {f : File} {buf : List Nat} {st : FileStatus} {n : Nat}
    {f' : File} (hres : f.write buf = (st, n, f')) :
    n ≤ buf.length := by
  unfold File.write at hres
  rcases hs : f.script with _ | ⟨r, rest⟩ <;> rw [hs] at hres
  · simp only [Prod.mk.injEq] at hres
    rw [← hres.2.1]
  · cases r <;> simp only [Prod.mk.injEq] at hres <;> rw [← hres.2.1]
    · simp
    · simp
    · rename_i cap
      by_cases hc : cap = 0 <;> simp [hc, List.length_take] <;> omega

/-- Loop of `file_write_fully` (file_util.cpp:130-153): accumulate
writes until the whole buffer is transferred, absorbing `RETRY`,
stopping on errors or on a zero-byte write. -/
def file_write_fully_go (f : File) (buf : List Nat) (written : Nat) :
    FileStatus × Nat × File :=
  if _hw : written < buf.length then
    match hres : f.write (buf.drop written) with
    | (st, n, f') =>
      if hr : st = .RETRY then file_write_fully_go f' buf written
      else if st.toInt < 0 then (st, written, f')
      else if _hn : n = 0 then (.OK, written, f')
      else file_write_fully_go f' buf (written + n)
  else (.OK, written, f)
termination_by f.script.length + (buf.length - written)
decreasing_by
  · have := write_retry_script hres hr
    omega
  · have h1 := write_script_le hres
    omega

/-- `file_write_fully` (file_util.cpp:130): repeated writes until the
buffer is fully transferred or end of capacity is reached. -/
def file_write_fully (f : File) (buf : List Nat) : FileStatus × Nat × File :=
  file_write_fully_go f buf 0

/-- Loop of `file_read_discard` (file_util.cpp:178-201).  Faithful to
the source, each call requests `min(size, 10240)` bytes — `size`, not
`size - *bytes_discarded` — which over-reads when `size > 10240`. -/
def file_read_discard_go (f : File) (size : Nat) (discarded : Nat) :
    FileStatus × Nat × File :=
  if _hd : discarded < size then
    match hres : f.read (min size 10240) with
    | (st, bytes, f') =>
      if hr : st = .RETRY then file_read_discard_go f' size discarded
      else if st.toInt < 0 then (st, discarded, f')
      else if _hb : bytes.length = 0 then (.OK, discarded, f')
      else file_read_discard_go f' size (discarded + bytes.length)
  else (.OK, discarded, f)
termination_by f.script.length + (size - discarded)
decreasing_by
  · have := read_retry_script hres hr
    omega
  · have h1 := read_script_le hres
    omega

/-- `file_read_discard` (file_util.cpp:178): read and drop data using a
10240-byte scratch buffer. -/
def file_read_discard (f : File) (size : Nat) : FileStatus × Nat × File :=
  file_read_discard_go f size 0

theorem file_read_fully_go_len_le (f : File) (size : Nat) (acc : List Nat) :
    (file_read_fully_go f size acc).2.1.length ≤ max acc.length size := by
  induction f, size, acc using file_read_fully_go.induct with
  | case1 f size acc hacc bytes f' hres ih =>
      rw [file_read_fully_go]
      simp [hres, hacc]
      simpa using ih
  | case2 f size acc hacc st bytes f' hres hnr hlt =>
      rw [file_read_fully_go]
      simp [hres, hacc, hnr, hlt]
  | case3 f size acc hacc st bytes f' hres hnr hlt hz =>
      rw [file_read_fully_go]
      simp [hres, hacc, hnr, hlt, hz]
  | case4 f size acc hacc st bytes f' hres hnr hlt hz ih =>
      rw [file_read_fully_go]
      simp [hres, hacc, hnr, hlt, hz]
      have hb := read_bytes_le hres
      simp at ih
      omega
  | case5 f size acc hacc =>
      rw [file_read_fully_go]
      simp [hacc]

theorem file_read_fully_len_le (f : File) (size : Nat) :
    (file_read_fully f size).2.1.length ≤ size := by
  have := file_read_fully_go_len_le f size []
  simpa [file_read_fully] using this

theorem file_write_fully_go_count_le (f : File) (buf : List Nat) (written : Nat) :
    (file_write_fully_go f buf written).2.1 ≤ max written buf.length := by
  induction f, buf, written using file_write_fully_go.induct with
  | case1 f buf written hw n f' hres ih =>
      rw [file_write_fully_go]
      simp [hres, hw]
      simpa using ih
  | case2 f buf written hw st n f' hres hnr hlt =>
      rw [file_write_fully_go]
      simp [hres, hw, hnr, hlt]
  | case3 f buf written hw st f' hres hnr hlt =>
      rw [file_write_fully_go]
      simp [hres, hw, hnr, hlt]
  | case4 f buf written hw st n f' hres hnr hlt hz ih =>
      rw [file_write_fully_go]
      simp [hres, hw, hnr, hlt, hz]
      have hb := write_count_le hres
      simp [List.length_drop] at hb
      omega
  | case5 f buf written hw =>
      rw [file_write_fully_go]
      simp [hw]

theorem file_write_fully_count_le (f : File) (buf : List Nat) :
    (file_write_fully f buf).2.1 ≤ buf.length := by
  have := file_write_fully_go_count_le f buf 0
  simpa [file_write_fully] using this

/-- `UINT64_MAX`, the largest representable absolute offset. -/
def UINT64_MAX : Nat := 2 ^ 64 - 1

/-- `SIZE_MAX`, the largest representable buffer size. -/
def SIZE_MAX : Nat := 2 ^ 64 - 1

/-- Forward copy loop of `file_move` (file_util.cpp:472-509): for
`dest < src`, copy ascending chunks of up to `chunk` bytes, seeking to
the source before each read and to the destination before each write.
The source fixes `chunk = 10240` (the scratch buffer size). -/
def file_move_fwd (chunk : Nat) (f : File) (src dest size moved : Nat) :
    FileStatus × Nat × File :=
  if _hm : moved < size then
    match f.seek (src + moved) with
    | (sst, f1) =>
      if sst ≠ .OK then (sst, moved, f1)
      else
        match hres : file_read_fully f1 (min chunk (size - moved)) with
        | (rst, bytes, f2) =>
          if rst ≠ .OK then (rst, moved, f2)
          else if _hz : bytes.length = 0 then (.OK, moved, f2)
          else
            match f2.seek (dest + moved) with
            | (sst2, f3) =>
              if sst2 ≠ .OK then (sst2, moved, f3)
              else
                match hw : file_write_fully f3 bytes with
                | (wst, n_written, f4) =>
                  if wst ≠ .OK then (wst, moved, f4)
                  else if _hs : n_written < bytes.length then
                    (.OK, moved + n_written, f4)
                  else file_move_fwd chunk f4 src dest size (moved + n_written)
  else (.OK, moved, f)
termination_by size - moved
decreasing_by
  omega

/-- Backward copy loop of `file_move` (file_util.cpp:510-551): for
`dest > src`, copy descending chunks; a short write (end of file)
shrinks the remaining total by the shortfall and the loop continues. -/
def file_move_bwd (chunk : Nat) (f : File) (src dest size moved : Nat) :
    FileStatus × Nat × File :=
  if _hm : moved < size then
    match f.seek (src + size - moved - min chunk (size - moved)) with
    | (sst, f1) =>
      if sst ≠ .OK then (sst, moved, f1)
      else
        match hres : file_read_fully f1 (min chunk (size - moved)) with
        | (rst, bytes, f2) =>
          if rst ≠ .OK then (rst, moved, f2)
          else if _hz : bytes.length = 0 then (.OK, moved, f2)
          else
            match f2.seek (dest + size - moved - bytes.length) with
            | (sst2, f3) =>
              if sst2 ≠ .OK then (sst2, moved, f3)
              else
                match hw : file_write_fully f3 bytes with
                | (wst, n_written, f4) =>
                  if wst ≠ .OK then (wst, moved, f4)
                  else if _hs : n_written < bytes.length then
                    file_move_bwd chunk f4 src dest
                      (size - (bytes.length - n_written)) (moved + n_written)
                  else file_move_bwd chunk f4 src dest size (moved + n_written)
  else (.OK, moved, f)
termination_by size - moved
decreasing_by
  · have hlen := file_read_fully_len_le f1 (min chunk (size - moved))
    rw [hres] at hlen
    simp at hlen
    omega
  · omega

/-- `file_move` with an explicit chunk size (file_util.cpp:450-554):
degenerate cases and the overflow guard, then the direction split.  On
the overflow failure the source leaves `*size_moved` unwritten; the
embedding reports `0` there. -/
def file_move_chunked (chunk : Nat) (f : File) (src dest size : Nat) :
    FileStatus × Nat × File :=
  if src = dest ∨ size = 0 then (.OK, size, f)
  else if UINT64_MAX - size < src ∨ UINT64_MAX - size < dest then
    (.FAILED, 0, f.set_error .INVALID_ARGUMENT)
  else if dest < src then file_move_fwd chunk f src dest size 0
  else file_move_bwd chunk f src dest size 0

/-- `file_move` (file_util.cpp:450): the source uses a 10240-byte
scratch buffer. -/
def file_move (f : File) (src dest size : Nat) : FileStatus × Nat × File :=
  file_move_chunked 10240 f src dest size

theorem read_data {f : File} {k : Nat} {st : FileStatus} {bytes : List Nat}
    {f' : File} (hres : f.read k = (st, bytes, f')) : f'.data = f.data := by
  unfold File.read at hres
  rcases hs : f.script with _ | ⟨r, rest⟩ <;> rw [hs] at hres
  · simp only [Prod.mk.injEq] at hres
    rw [← hres.2.2]
  · cases r <;> simp only [Prod.mk.injEq] at hres <;> rw [← hres.2.2]

theorem read_pos {f : File} {k : Nat} {st : FileStatus} {bytes : List Nat}
    {f' : File} (hres : f.read k = (st, bytes, f')) :
    f'.pos = f.pos + bytes.length := by
  unfold File.read at hres
  rcases hs : f.script with _ | ⟨r, rest⟩ <;> rw [hs] at hres
  · simp only [Prod.mk.injEq] at hres
    rw [← hres.2.2, ← hres.2.1]
  · cases r <;> simp only [Prod.mk.injEq] at hres <;> rw [← hres.2.2, ← hres.2.1] <;> simp

theorem read_pos_bound {f : File} {k : Nat} {st : FileStatus} {bytes : List Nat}
    {f' : File} (hres : f.read k = (st, bytes, f')) :
    f'.pos ≤ max f.pos f.data.length := by
  unfold File.read at hres
  rcases hs : f.script with _ | ⟨r, rest⟩ <;> rw [hs] at hres
  · simp only [Prod.mk.injEq] at hres
    rw [← hres.2.2]
    simp [List.length_take]
    omega
  · cases r <;> simp only [Prod.mk.injEq] at hres <;> rw [← hres.2.2] <;>
      simp [List.length_take] <;> omega

theorem read_nil {f : File} {k : Nat} {st : FileStatus} {bytes : List Nat}
    {f' : File} (hres : f.read k = (st, bytes, f')) (hb : bytes = []) :
    f'.script.length < f.script.length ∨ f' = f := by
  subst hb
  rcases f with ⟨data, pos, seekable, script, error⟩
  unfold File.read at hres
  rcases script with _ | ⟨r, rest⟩
  · simp only [Prod.mk.injEq] at hres
    right
    rw [← hres.2.2]
    rw [hres.2.1]
    simp
  · cases r <;> simp only [Prod.mk.injEq] at hres <;> rw [← hres.2.2] <;> simp

theorem read_retry_state {f : File} {k : Nat} {st : FileStatus} {bytes : List Nat}
    {f' : File} (hres : f.read k = (st, bytes, f')) (h : st = .RETRY) :
    bytes = [] := by
  subst h
  unfold File.read at hres
  rcases hs : f.script with _ | ⟨r, rest⟩ <;> rw [hs] at hres
  · simp only [Prod.mk.injEq] at hres
    exact absurd hres.1 (by simp)
  · cases r <;> simp only [Prod.mk.injEq] at hres
    · exact hres.2.1.symm
    · exact hres.2.1.symm
    · exact absurd hres.1 (by simp)

theorem read_bad {f : File} {k : Nat} {st : FileStatus} {bytes : List Nat}
    {f' : File} (hres : f.read k = (st, bytes, f')) (hnr : st ≠ .RETRY)
    (hlt : st.toInt < 0) :
    f'.script.length < f.script.length ∧ bytes = [] := by
  unfold File.read at hres
  rcases hs : f.script with _ | ⟨r, rest⟩ <;> rw [hs] at hres
  · simp only [Prod.mk.injEq] at hres
    rw [← hres.1] at hlt
    simp [FileStatus.toInt] at hlt
  · cases r <;> simp only [Prod.mk.injEq] at hres
    · exact absurd (hres.1.symm.trans rfl) hnr
    · refine ⟨?_, hres.2.1.symm⟩
      rw [← hres.2.2]
      simp [hs]
    · rw [← hres.1] at hlt
      simp [FileStatus.toInt] at hlt

/-- Combined bookkeeping facts about the `file_read_fully` loop: it
preserves the content, never lengthens the script, advances the
position by exactly the bytes it returns, never moves the position past
the end of file (unless it already was), only extends the accumulator,
and makes no progress only when it consumed script entries or left the
handle untouched. -/
theorem file_read_fully_go_state (f : File) (size : Nat) (acc : List Nat) :
    (file_read_fully_go f size acc).2.2.data = f.data ∧
    (file_read_fully_go f size acc).2.2.script.length ≤ f.script.length ∧
    (file_read_fully_go f size acc).2.2.pos + acc.length
      = f.pos + (file_read_fully_go f size acc).2.1.length ∧
    (file_read_fully_go f size acc).2.2.pos ≤ max f.pos f.data.length ∧
    acc.length ≤ (file_read_fully_go f size acc).2.1.length ∧
    ((file_read_fully_go f size acc).2.1.length = acc.length →
      ((file_read_fully_go f size acc).2.2.script.length < f.script.length ∨
        (file_read_fully_go f size acc).2.2 = f)) := by
  induction f, size, acc using file_read_fully_go.induct with
  | case1 f size acc hacc bytes f' hres ih =>
      have hstep : file_read_fully_go f size acc = file_read_fully_go f' size acc := by
        rw [file_read_fully_go]
        simp [hres, hacc]
      have h1 := read_script_le hres
      have h2 := read_data hres
      have h3 := read_pos hres
      have h4 := read_pos_bound hres
      have h5 := read_retry_script hres rfl
      have h6 := read_retry_state hres rfl
      subst h6
      simp only [List.length_nil, Nat.add_zero] at h3
      obtain ⟨i1, i2, i3, i4, i5, i6⟩ := ih
      rw [hstep]
      refine ⟨i1.trans h2, by omega, by omega, ?_, i5, fun hh => ?_⟩
      · refine le_trans i4 ?_
        rw [h2]
        omega
      · rcases i6 hh with h | h
        · left
          omega
        · left
          rw [h]
          omega
  | case2 f size acc hacc st bytes f' hres hnr hlt =>
      have hstep : file_read_fully_go f size acc = (st, acc, f') := by
        rw [file_read_fully_go]
        simp [hres, hacc, hnr, hlt]
      have e2 : (file_read_fully_go f size acc).2.1 = acc := by rw [hstep]
      have e3 : (file_read_fully_go f size acc).2.2 = f' := by rw [hstep]
      have h2 := read_data hres
      have h3 := read_pos hres
      have h4 := read_pos_bound hres
      have h5 := read_bad hres hnr hlt
      rw [h5.2] at h3
      simp only [List.length_nil, Nat.add_zero] at h3
      rw [e2, e3]
      exact ⟨h2, by omega, by omega, h4, by omega, fun _ => Or.inl (by omega)⟩
  | case3 f size acc hacc st bytes f' hres hnr hlt hz =>
      have hstep : file_read_fully_go f size acc = (.OK, acc, f') := by
        rw [file_read_fully_go]
        simp [hres, hacc, hnr, hlt, hz]
      have e2 : (file_read_fully_go f size acc).2.1 = acc := by rw [hstep]
      have e3 : (file_read_fully_go f size acc).2.2 = f' := by rw [hstep]
      have h1 := read_script_le hres
      have h2 := read_data hres
      have h3 := read_pos hres
      have h4 := read_pos_bound hres
      have h6 := read_nil hres (List.eq_nil_of_length_eq_zero hz)
      rw [List.eq_nil_of_length_eq_zero hz] at h3
      simp only [List.length_nil, Nat.add_zero] at h3
      rw [e2, e3]
      exact ⟨h2, by omega, by omega, h4, by omega, fun _ => h6⟩
  | case4 f size acc hacc st bytes f' hres hnr hlt hz ih =>
      have hstep : file_read_fully_go f size acc
          = file_read_fully_go f' size (acc ++ bytes) := by
        rw [file_read_fully_go]
        simp [hres, hacc, hnr, hlt, hz]
      have h1 := read_script_le hres
      have h2 := read_data hres
      have h3 := read_pos hres
      have h4 := read_pos_bound hres
      obtain ⟨i1, i2, i3, i4, i5, i6⟩ := ih
      simp only [List.length_append] at i3 i5
      rw [hstep]
      refine ⟨i1.trans h2, by omega, by omega, ?_, by omega, fun hh => ?_⟩
      · refine le_trans i4 ?_
        rw [h2]
        omega
      · exact absurd hh (by omega)
  | case5 f size acc hacc =>
      have hstep : file_read_fully_go f size acc = (.OK, acc, f) := by
        rw [file_read_fully_go]
        simp [hacc]
      have e2 : (file_read_fully_go f size acc).2.1 = acc := by rw [hstep]
      have e3 : (file_read_fully_go f size acc).2.2 = f := by rw [hstep]
      rw [e2, e3]
      exact ⟨rfl, by omega, by omega, by omega, by omega, fun _ => Or.inr rfl⟩

theorem file_read_fully_data (f : File) (k : Nat) :
    (file_read_fully f k).2.2.data = f.data :=
  (file_read_fully_go_state f k []).1

theorem file_read_fully_script_le (f : File) (k : Nat) :
    (file_read_fully f k).2.2.script.length ≤ f.script.length :=
  (file_read_fully_go_state f k []).2.1

theorem file_read_fully_pos (f : File) (k : Nat) :
    (file_read_fully f k).2.2.pos = f.pos + (file_read_fully f k).2.1.length := by
  have := (file_read_fully_go_state f k []).2.2.1
  simpa [file_read_fully] using this

theorem file_read_fully_pos_bound (f : File) (k : Nat) :
    (file_read_fully f k).2.2.pos ≤ max f.pos f.data.length :=
  (file_read_fully_go_state f k []).2.2.2.1

theorem file_read_fully_nil (f : File) (k : Nat)
    (h : (file_read_fully f k).2.1 = []) :
    (file_read_fully f k).2.2.script.length < f.script.length ∨
      (file_read_fully f k).2.2 = f := by
  have := (file_read_fully_go_state f k []).2.2.2.2.2
  rw [file_read_fully] at h
  exact this (by simp [h])

/-- Does `pat` occur at the very start of `hay`? -/
def patHere : List Nat → List Nat → Bool
  | [], _ => true
  | _ :: _, [] => false
  | p :: ps, h :: hs => p == h && patHere ps hs

theorem patHere_iff (pat hay : List Nat) :
    patHere pat hay = true ↔ hay.take pat.length = pat := by
  induction pat generalizing hay with
  | nil => simp [patHere]
  | cons p ps ih =>
      cases hay with
      | nil => simp [patHere]
      | cons h hs =>
          simp only [patHere, Bool.and_eq_true, beq_iff_eq, List.length_cons,
            List.take_succ_cons, List.cons.injEq, ih]
          constructor
          · rintro ⟨h1, h2⟩
            exact ⟨h1.symm, h2⟩
          · rintro ⟨h1, h2⟩
            exact ⟨h1.symm, h2⟩

/-- Modelled from the spec: `mb_memmem` (its source,
`libmbcommon/src/libc/string.c`, is not among the supplied files) —
index of the first occurrence of `pat` within `hay`, scanning left to
right with exact matching; `none` when `pat` does not occur. -/
def mb_memmem (hay pat : List Nat) : Option Nat :=
  if patHere pat hay then some 0
  else
    match hay with
    | [] => none
    | _ :: t => (mb_memmem t pat).map (· + 1)

/-- `pat` occurs in `l` at index `i`. -/
def occurAt (l pat : List Nat) (i : Nat) : Prop := (l.drop i).take pat.length = pat

theorem occurAt_bound {l pat : List Nat} {i : Nat} (hp : pat ≠ [])
    (h : occurAt l pat i) : i + pat.length ≤ l.length := by
  have hlen : ((l.drop i).take pat.length).length = pat.length := by rw [h]
  have hps : 0 < pat.length := List.length_pos.mpr hp
  simp [List.length_take, List.length_drop] at hlen
  omega

theorem mb_memmem_occur {hay pat : List Nat} {i : Nat}
    (h : mb_memmem hay pat = some i) : occurAt hay pat i := by
  induction hay generalizing i with
  | nil =>
      rw [mb_memmem] at h
      by_cases hp : patHere pat [] = true
      · simp [hp] at h
        rw [← h]
        simpa [occurAt, eq_comm] using (patHere_iff pat []).mp hp
      · simp [hp] at h
  | cons x t ih =>
      rw [mb_memmem] at h
      by_cases hp : patHere pat (x :: t) = true
      · simp [hp] at h
        rw [← h]
        simpa [occurAt, eq_comm] using (patHere_iff pat (x :: t)).mp hp
      · simp [hp] at h
        obtain ⟨j, hj, hji⟩ := h
        rw [← hji]
        simpa [occurAt] using ih hj

theorem mb_memmem_first {hay pat : List Nat} {i : Nat}
    (h : mb_memmem hay pat = some i) : ∀ j, j < i → ¬ occurAt hay pat j := by
  induction hay generalizing i with
  | nil =>
      rw [mb_memmem] at h
      by_cases hp : patHere pat [] = true
      · simp [hp] at h
        omega
      · simp [hp] at h
  | cons x t ih =>
      rw [mb_memmem] at h
      by_cases hp : patHere pat (x :: t) = true
      · simp [hp] at h
        omega
      · simp [hp] at h
        obtain ⟨j', hj', hji⟩ := h
        intro j hj hocc
        cases j with
        | zero =>
            have htake : (x :: t).take pat.length = pat := by
              simpa [occurAt] using hocc
            exact hp ((patHere_iff pat (x :: t)).mpr htake)
        | succ k =>
            have hk : occurAt t pat k := by simpa [occurAt] using hocc
            exact ih hj' k (by omega) hk

theorem mb_memmem_none {hay pat : List Nat}
    (h : mb_memmem hay pat = none) : ∀ j, ¬ occurAt hay pat j := by
  induction hay with
  | nil =>
      intro j hocc
      rw [mb_memmem] at h
      by_cases hp : patHere pat [] = true
      · simp [hp] at h
      · have hpat : pat ≠ [] := by
          intro he
          rw [he] at hp
          simp [patHere] at hp
        have : ((List.drop j ([] : List Nat)).take pat.length) = pat := hocc
        simp at this
        exact hpat this
  | cons x t ih =>
      intro j hocc
      rw [mb_memmem] at h
      by_cases hp : patHere pat (x :: t) = true
      · simp [hp] at h
      · simp [hp] at h
        cases j with
        | zero =>
            have : (x :: t).take pat.length = pat := by simpa [occurAt] using hocc
            exact hp ((patHere_iff pat (x :: t)).mpr this)
        | succ k =>
            exact ih h k (by simpa [occurAt] using hocc)

theorem mb_memmem_le {hay pat : List Nat} (hp : pat ≠ []) {i : Nat}
    (h : mb_memmem hay pat = some i) : i + pat.length ≤ hay.length :=
  occurAt_bound hp (mb_memmem_occur h)

/-- Outcome of scanning one filled window: either the whole search is
finished with a status (`done`), or the window is exhausted and the
outer loop continues with the updated budget and the final value of the
`match_remain` counter (`cont`). -/
inductive InnerRes
  | done (st : FileStatus) (acc : List Nat)
  | cont (acc : List Nat) (budget : Int) (remain : Nat)
deriving DecidableEq, Repr

/-- Inner match loop of `file_search` (file_util.cpp:370-406): scan the
window `buffer` (whose first `n` bytes are valid) from byte `m` with
`remain` valid bytes remaining, report matches to the callback, honour
the `end` boundary and the match budget, and advance past each full
match (searches never overlap).  The callback is modelled as a pure
function of the offsets reported so far and the new match offset; `acc`
accumulates the reported offsets.  The pattern is `p0 :: prest`
(`file_search` handles an empty pattern before scanning). -/
def search_inner (p0 : Nat) (prest : List Nat) (buffer : List Nat)
    (n : Nat) (offset : Nat) (endo : Int) (cb : List Nat → Nat → FileStatus)
    (m remain : Nat) (acc : List Nat) (budget : Int) : InnerRes :=
  match hmm : mb_memmem ((buffer.drop m).take remain) (p0 :: prest) with
  | none => .cont acc budget remain
  | some i =>
      if 0 ≤ endo ∧ endo.toNat < offset + (m + i) + (prest.length + 1) then
        .done .OK acc
      else if cb acc (offset + (m + i)) = .WARN then
        .done .OK (acc ++ [offset + (m + i)])
      else if (cb acc (offset + (m + i))).toInt < 0 then
        .done (cb acc (offset + (m + i))) (acc ++ [offset + (m + i)])
      else if 0 < budget ∧ budget - 1 = 0 then
        .done .OK (acc ++ [offset + (m + i)])
      else if prest.length + 1 ≤ remain then
        search_inner p0 prest buffer n offset endo cb (m + i + (prest.length + 1))
          (n - (m + i + (prest.length + 1))) (acc ++ [offset + (m + i)])
          (if 0 < budget then budget - 1 else budget)
      else
        .cont (acc ++ [offset + (m + i)]) (if 0 < budget then budget - 1 else budget)
          remain
termination_by buffer.length - m
decreasing_by
  have hb := mb_memmem_le (by simp) hmm
  simp [List.length_take, List.length_drop] at hb
  omega

/-- Outer sliding-window loop of `file_search` (file_util.cpp:343-416):
refill the vacant part of the window, stop at end of file (fewer than
`pattern_size` valid bytes) or past the `end` boundary, guard the
offset arithmetic, scan the window, then retain up to
`pattern_size - 1` trailing bytes and advance the running offset. -/
def file_search_loop (p0 : Nat) (prest : List Nat) (endo : Int)
    (cb : List Nat → Nat → FileStatus) (buf_size : Nat) (f : File)
    (tail : List Nat) (offset : Nat) (acc : List Nat) (budget : Int) :
    FileStatus × List Nat × File :=
  match hread : file_read_fully f (buf_size - tail.length) with
  | (rst, bytes, f') =>
    if rst.toInt < 0 then (rst, acc, f')
    else if hn : (tail ++ bytes).length < prest.length + 1 then (.OK, acc, f')
    else if 0 ≤ endo ∧ endo.toNat ≤ offset then (.OK, acc, f')
    else if UINT64_MAX - offset < (tail ++ bytes).length then
      (.FAILED, acc, f'.set_error .INTERNAL_ERROR)
    else
      match search_inner p0 prest (tail ++ bytes) (tail ++ bytes).length offset
          endo cb 0 (tail ++ bytes).length acc budget with
      | .done st acc' => (st, acc', f')
      | .cont acc' bud rem =>
          file_search_loop p0 prest endo cb buf_size f'
            ((tail ++ bytes).drop ((tail ++ bytes).length - min rem prest.length))
            (offset + ((tail ++ bytes).length - min rem prest.length)) acc' bud
termination_by (f.script.length + (f.data.length - f.pos), tail.length)
decreasing_by
  have hd := file_read_fully_data f (buf_size - tail.length)
  have hpp := file_read_fully_pos f (buf_size - tail.length)
  have hpb := file_read_fully_pos_bound f (buf_size - tail.length)
  have hsc := file_read_fully_script_le f (buf_size - tail.length)
  rw [hread] at hd hpp hpb hsc
  simp only [] at hd hpp hpb hsc
  by_cases hbn : bytes = []
  · have hnil := file_read_fully_nil f (buf_size - tail.length)
      (by rw [hread]; simpa using hbn)
    rw [hread] at hnil
    simp only [] at hnil
    rcases hnil with hlt | heq
    · apply Prod.Lex.left
      subst hbn
      simp only [List.length_nil, Nat.add_zero] at hpp
      rw [hd, hpp]
      omega
    · rw [heq]
      apply Prod.Lex.right
      subst hbn
      simp [List.length_drop]
      simp at hn
      omega
  · apply Prod.Lex.left
    have hb1 : 0 < bytes.length := List.length_pos.mpr hbn
    rw [hd, hpp]
    omega

/-- `DEFAULT_BUFFER_SIZE` (file_util.cpp:30): 8 MiB. -/
def DEFAULT_BUFFER_SIZE : Nat := 8 * 1024 * 1024

/-- Buffer sizing of `file_search` (file_util.cpp:288-298): an explicit
`bsize` is used as is; `0` requests the larger of `DEFAULT_BUFFER_SIZE`
and twice the pattern size, saturating to `SIZE_MAX` when doubling the
pattern size would overflow. -/
def searchBufSize (bsize ps : Nat) : Nat :=
  if bsize ≠ 0 then bsize
  else if SIZE_MAX / 2 < ps then SIZE_MAX
  else max DEFAULT_BUFFER_SIZE (ps * 2)

/-- Starting offset of `file_search` (file_util.cpp:316-320): `start`,
or `0` when negative. -/
def searchStart (start : Int) : Nat := if 0 ≤ start then start.toNat else 0

/-- `file_search` (file_util.cpp:258-421): validation, buffer sizing,
positioning (seek, or read-and-discard when seeking is unsupported),
then the sliding-window scan.  The reported match offsets are returned
as a list alongside the status; buffer allocation is modelled as always
succeeding. -/
def file_search (f : File) (start endo : Int) (bsize : Nat) (pat : List Nat)
    (max_matches : Int) (cb : List Nat → Nat → FileStatus) :
    FileStatus × List Nat × File :=
  if 0 ≤ start ∧ 0 ≤ endo ∧ endo < start then
    (.FAILED, [], f.set_error .INVALID_ARGUMENT)
  else
    match pat with
    | [] => (.OK, [], f)
    | p0 :: prest =>
      if max_matches = 0 then (.OK, [], f)
      else if searchBufSize bsize (p0 :: prest).length < (p0 :: prest).length then
        (.FAILED, [], f.set_error .INVALID_ARGUMENT)
      else
        match f.seek (searchStart start) with
        | (sst, f1) =>
          if sst = .UNSUPPORTED then
            match file_read_discard f1 (searchStart start) with
            | (dst, discarded, f2) =>
              if dst.toInt < 0 then (dst, [], f2)
              else if discarded ≠ searchStart start then
                (.FATAL, [], f2.set_error .INVALID_ARGUMENT)
              else file_search_loop p0 prest endo cb
                (searchBufSize bsize (p0 :: prest).length) f2 [] (searchStart start)
                [] max_matches
          else if sst.toInt < 0 then (sst, [], f1)
          else file_search_loop p0 prest endo cb
            (searchBufSize bsize (p0 :: prest).length) f1 [] (searchStart start) []
            max_matches

theorem read_clean (L : List Nat) (pos : Nat) (sk : Bool) (err : Option FileError)
    (k : Nat) :
    File.read ⟨L, pos, sk, [], err⟩ k
      = (.OK, (L.drop pos).take k,
          ⟨L, pos + ((L.drop pos).take k).length, sk, [], err⟩) := rfl

theorem write_clean (L : List Nat) (pos : Nat) (sk : Bool) (err : Option FileError)
    (buf : List Nat) :
    File.write ⟨L, pos, sk, [], err⟩ buf
      = (.OK, buf.length, ⟨writeAt L pos buf, pos + buf.length, sk, [], err⟩) := rfl

/-- On a handle with an exhausted script, `file_read_fully` returns in
one shot everything that is available up to the requested size. -/
theorem file_read_fully_clean (L : List Nat) (pos : Nat) (sk : Bool)
    (err : Option FileError) (size : Nat) :
    file_read_fully ⟨L, pos, sk, [], err⟩ size
      = (.OK, (L.drop pos).take size,
          ⟨L, pos + ((L.drop pos).take size).length, sk, [], err⟩) := by
  rw [file_read_fully]
  by_cases h0 : ([] : List Nat).length < size
  · rw [file_read_fully_go]
    rw [dif_pos h0]
    simp only [Nat.sub_zero, List.length_nil, read_clean]
    have hnr : (FileStatus.OK ≠ FileStatus.RETRY) := by simp
    rw [dif_neg hnr]
    have hge : ¬ (FileStatus.OK.toInt < 0) := by simp [FileStatus.toInt]
    rw [if_neg hge]
    by_cases hz : ((L.drop pos).take size).length = 0
    · rw [dif_pos hz]
      rw [List.eq_nil_of_length_eq_zero hz]
    · rw [dif_neg hz]
      simp only [List.nil_append]
      by_cases hlt : ((L.drop pos).take size).length < size
      · rw [file_read_fully_go]
        rw [dif_pos hlt]
        rw [read_clean]
        have hlen1 : ((L.drop pos).take size).length = L.length - pos := by
          simp only [List.length_take, List.length_drop] at hlt ⊢
          omega
        have hnil2 : (L.drop (pos + ((L.drop pos).take size).length)) = [] := by
          rw [List.drop_eq_nil_iff]
          omega
        rw [hnil2]
        simp only [List.take_nil, List.length_nil]
        rw [dif_neg hnr, if_neg hge]
        simp
      · rw [file_read_fully_go]
        rw [dif_neg hlt]
  · have hs : size = 0 := by simpa using h0
    subst hs
    rw [file_read_fully_go]
    simp

theorem writeAt_nil (d : List Nat) (pos : Nat) : writeAt d pos [] = d := by
  simp [writeAt]

/-- On a handle with an exhausted script, `file_write_fully` writes the
whole buffer in one shot. -/
theorem file_write_fully_clean (L : List Nat) (pos : Nat) (sk : Bool)
    (err : Option FileError) (buf : List Nat) :
    file_write_fully ⟨L, pos, sk, [], err⟩ buf
      = (.OK, buf.length, ⟨writeAt L pos buf, pos + buf.length, sk, [], err⟩) := by
  rw [file_write_fully]
  by_cases h0 : 0 < buf.length
  · rw [file_write_fully_go]
    rw [dif_pos h0]
    simp only [List.drop_zero, write_clean]
    have hnr : (FileStatus.OK ≠ FileStatus.RETRY) := by simp
    rw [dif_neg hnr]
    have hge : ¬ (FileStatus.OK.toInt < 0) := by simp [FileStatus.toInt]
    rw [if_neg hge]
    rw [dif_neg (by omega)]
    rw [file_write_fully_go]
    rw [dif_neg (by simp)]
    simp
  · have hb : buf = [] := by
      cases buf
      · rfl
      · simp at h0
    subst hb
    rw [file_write_fully_go]
    simp [writeAt_nil]

/-- C2: refuted by the code — `file_read_discard` requests
`min(size, 10240)` bytes per iteration instead of the remaining amount,
so on a handle holding 10242 bytes a request to discard 10241 bytes
consumes and reports 10242 bytes: the call returns `OK` with
`bytes_discarded = 10242 ≠ 10241` and the final position 10242 shows
that more than `size` bytes were consumed. -/
theorem claim_C2_file_read_discard (L : List Nat) (hL : L.length = 10242) :
    file_read_discard ⟨L, 0, true, [], none⟩ 10241
      = (.OK, 10242, ⟨L, 10242, true, [], none⟩) := by
  have hnr : (FileStatus.OK ≠ FileStatus.RETRY) := by simp
  have hge : ¬ (FileStatus.OK.toInt < 0) := by simp [FileStatus.toInt]
  have hmin : min (10241 : Nat) 10240 = 10240 := by norm_num
  have h1 : ((L.drop 0).take 10240).length = 10240 := by
    simp [List.length_take, List.length_drop]
    omega
  have h2 : ((L.drop (0 + 10240)).take 10240).length = 2 := by
    simp [List.length_take, List.length_drop]
    omega
  rw [file_read_discard]
  rw [file_read_discard_go]
  rw [dif_pos (by norm_num)]
  simp only [hmin, read_clean]
  rw [dif_neg hnr, if_neg hge]
  rw [dif_neg (by rw [h1]; norm_num)]
  rw [h1]
  rw [file_read_discard_go]
  rw [dif_pos (by norm_num)]
  simp only [hmin, read_clean]
  rw [dif_neg hnr, if_neg hge]
  rw [dif_neg (by rw [h2]; norm_num)]
  rw [h2]
  rw [file_read_discard_go]
  rw [dif_neg (by norm_num)]

/-- C2 witness: the counted behaviour at the concrete content
`List.replicate 10242 0`. -/
theorem claim_C2_file_read_discard_witness :
    file_read_discard ⟨List.replicate 10242 0, 0, true, [], none⟩ 10241
      = (.OK, 10242, ⟨List.replicate 10242 0, 10242, true, [], none⟩) :=
  claim_C2_file_read_discard (List.replicate 10242 0)
    (by rw [List.length_replicate])

/-- A script that never fails a call: it contains no `err` entry. -/
def noErr (l : List Resp) : Prop := ∀ r ∈ l, ∀ s, r ≠ .err s

theorem read_script_suffix {f : File} {k : Nat} {st : FileStatus} {bytes : List Nat}
    {f' : File} (hres : f.read k = (st, bytes, f')) :
    f'.script = f.script ∨ ∃ r, f.script = r :: f'.script := by
  unfold File.read at hres
  rcases hs : f.script with _ | ⟨r, rest⟩ <;> rw [hs] at hres
  · simp only [Prod.mk.injEq] at hres
    left
    rw [← hres.2.2]
  · cases r <;> simp only [Prod.mk.injEq] at hres <;> right <;>
      exact ⟨_, by rw [← hres.2.2]⟩

theorem write_script_suffix {f : File} {buf : List Nat} {st : FileStatus} {n : Nat}
    {f' : File} (hres : f.write buf = (st, n, f')) :
    f'.script = f.script ∨ ∃ r, f.script = r :: f'.script := by
  unfold File.write at hres
  rcases hs : f.script with _ | ⟨r, rest⟩ <;> rw [hs] at hres
  · simp only [Prod.mk.injEq] at hres
    left
    rw [← hres.2.2]
  · cases r <;> simp only [Prod.mk.injEq] at hres <;> right <;>
      exact ⟨_, by rw [← hres.2.2]⟩

theorem read_noErr {f : File} {k : Nat} {st : FileStatus} {bytes : List Nat}
    {f' : File} (hres : f.read k = (st, bytes, f')) (h : noErr f.script) :
    noErr f'.script := by
  rcases read_script_suffix hres with h1 | ⟨r, h1⟩
  · rw [h1]
    exact h
  · intro x hx
    exact h x (by rw [h1]; exact List.mem_cons_of_mem _ hx)

theorem write_noErr {f : File} {buf : List Nat} {st : FileStatus} {n : Nat}
    {f' : File} (hres : f.write buf = (st, n, f')) (h : noErr f.script) :
    noErr f'.script := by
  rcases write_script_suffix hres with h1 | ⟨r, h1⟩
  · rw [h1]
    exact h
  · intro x hx
    exact h x (by rw [h1]; exact List.mem_cons_of_mem _ hx)

theorem read_bad_mem {f : File} {k : Nat} {st : FileStatus} {bytes : List Nat}
    {f' : File} (hres : f.read k = (st, bytes, f')) (hnr : st ≠ .RETRY)
    (hlt : st.toInt < 0) : Resp.err st ∈ f.script := by
  unfold File.read at hres
  rcases hs : f.script with _ | ⟨r, rest⟩ <;> rw [hs] at hres
  · simp only [Prod.mk.injEq] at hres
    rw [← hres.1] at hlt
    simp [FileStatus.toInt] at hlt
  · cases r <;> simp only [Prod.mk.injEq] at hres
    · exact absurd (hres.1.symm.trans rfl) hnr
    · rw [← hres.1]
      exact List.mem_cons_self _ _
    · rw [← hres.1] at hlt
      simp [FileStatus.toInt] at hlt

theorem write_bad_mem {f : File} {buf : List Nat} {st : FileStatus} {n : Nat}
    {f' : File} (hres : f.write buf = (st, n, f')) (hnr : st ≠ .RETRY)
    (hlt : st.toInt < 0) : Resp.err st ∈ f.script := by
  unfold File.write at hres
  rcases hs : f.script with _ | ⟨r, rest⟩ <;> rw [hs] at hres
  · simp only [Prod.mk.injEq] at hres
    rw [← hres.1] at hlt
    simp [FileStatus.toInt] at hlt
  · cases r <;> simp only [Prod.mk.injEq] at hres
    · exact absurd (hres.1.symm.trans rfl) hnr
    · rw [← hres.1]
      exact List.mem_cons_self _ _
    · rw [← hres.1] at hlt
      simp [FileStatus.toInt] at hlt

theorem read_bytes_avail {f : File} {k : Nat} {st : FileStatus} {bytes : List Nat}
    {f' : File} (hres : f.read k = (st, bytes, f')) :
    bytes.length ≤ f.data.length - f.pos := by
  unfold File.read at hres
  rcases hs : f.script with _ | ⟨r, rest⟩ <;> rw [hs] at hres
  · simp only [Prod.mk.injEq] at hres
    rw [← hres.2.1]
    simp [List.length_take, List.length_drop]
  · cases r <;> simp only [Prod.mk.injEq] at hres <;> rw [← hres.2.1]
    · simp
    · simp
    · simp [List.length_take, List.length_drop]

theorem read_nil_avail {f : File} {k : Nat} {st : FileStatus} {bytes : List Nat}
    {f' : File} (hres : f.read k = (st, bytes, f')) (hne : noErr f.script)
    (hnr : st ≠ .RETRY) (hb : bytes = []) (hk : 1 ≤ k) :
    f.data.length ≤ f.pos := by
  subst hb
  unfold File.read at hres
  rcases hs : f.script with _ | ⟨r, rest⟩ <;> rw [hs] at hres
  · simp only [Prod.mk.injEq] at hres
    have h1 : List.take k (List.drop f.pos f.data) = [] := hres.2.1
    rw [List.take_eq_nil_iff] at h1
    rcases h1 with h | h
    · omega
    · simpa [List.drop_eq_nil_iff] using h
  · cases r <;> simp only [Prod.mk.injEq] at hres
    · exact absurd (hres.1.symm.trans rfl) hnr
    · exact absurd rfl (hne _ (by rw [hs]; exact List.mem_cons_self _ _) _)
    · rename_i cap
      have h1 := hres.2.1
      rw [List.take_eq_nil_iff] at h1
      rcases h1 with h | h
      · by_cases hc : cap = 0 <;> simp [hc] at h <;> omega
      · simpa [List.drop_eq_nil_iff] using h

theorem write_pos_adv {f : File} {buf : List Nat} {st : FileStatus} {n : Nat}
    {f' : File} (hres : f.write buf = (st, n, f')) :
    f'.pos = f.pos + n := by
  unfold File.write at hres
  rcases hs : f.script with _ | ⟨r, rest⟩ <;> rw [hs] at hres
  · simp only [Prod.mk.injEq] at hres
    rw [← hres.2.2, ← hres.2.1]
  · cases r <;> simp only [Prod.mk.injEq] at hres <;> rw [← hres.2.2, ← hres.2.1] <;> simp

theorem write_min_one {f : File} {buf : List Nat} {st : FileStatus} {n : Nat}
    {f' : File} (hres : f.write buf = (st, n, f')) (hne : noErr f.script)
    (hnr : st ≠ .RETRY) (hb : 1 ≤ buf.length) : 1 ≤ n := by
  unfold File.write at hres
  rcases hs : f.script with _ | ⟨r, rest⟩ <;> rw [hs] at hres
  · simp only [Prod.mk.injEq] at hres
    omega
  · cases r <;> simp only [Prod.mk.injEq] at hres
    · exact absurd (hres.1.symm.trans rfl) hnr
    · exact absurd rfl (hne _ (by rw [hs]; exact List.mem_cons_self _ _) _)
    · rename_i cap
      rw [← hres.2.1]
      by_cases hc : cap = 0 <;> simp [hc, List.length_take] <;> omega

theorem write_retry_count {f : File} {buf : List Nat} {st : FileStatus} {n : Nat}
    {f' : File} (hres : f.write buf = (st, n, f')) (h : st = .RETRY) : n = 0 := by
  subst h
  unfold File.write at hres
  rcases hs : f.script with _ | ⟨r, rest⟩ <;> rw [hs] at hres
  · simp only [Prod.mk.injEq] at hres
    exact absurd hres.1 (by simp)
  · cases r <;> simp only [Prod.mk.injEq] at hres
    · exact hres.2.1.symm
    · exact hres.2.1.symm
    · exact absurd hres.1 (by simp)

theorem write_bad_count {f : File} {buf : List Nat} {st : FileStatus} {n : Nat}
    {f' : File} (hres : f.write buf = (st, n, f')) (hnr : st ≠ .RETRY)
    (hlt : st.toInt < 0) : n = 0 := by
  unfold File.write at hres
  rcases hs : f.script with _ | ⟨r, rest⟩ <;> rw [hs] at hres
  · simp only [Prod.mk.injEq] at hres
    rw [← hres.1] at hlt
    simp [FileStatus.toInt] at hlt
  · cases r <;> simp only [Prod.mk.injEq] at hres
    · exact absurd (hres.1.symm.trans rfl) hnr
    · exact hres.2.1.symm
    · rw [← hres.1] at hlt
      simp [FileStatus.toInt] at hlt

theorem script_mem_trans {f f' : File}
    (h : f'.script = f.script ∨ ∃ r, f.script = r :: f'.script) {x : Resp}
    (hx : x ∈ f'.script) : x ∈ f.script := by
  rcases h with h | ⟨r, h⟩
  · rw [← h]
    exact hx
  · rw [h]
    exact List.mem_cons_of_mem _ hx

/-- The status returned by the `file_read_fully` loop is `OK` unless a
scripted error was hit, in which case that error status is returned. -/
theorem file_read_fully_go_status (f : File) (size : Nat) (acc : List Nat) :
    (file_read_fully_go f size acc).1 = .OK ∨
      ((file_read_fully_go f size acc).1.toInt < 0 ∧
        Resp.err (file_read_fully_go f size acc).1 ∈ f.script) := by
  induction f, size, acc using file_read_fully_go.induct with
  | case1 f size acc hacc bytes f' hres ih =>
      have hstep : file_read_fully_go f size acc = file_read_fully_go f' size acc := by
        rw [file_read_fully_go]
        simp [hres, hacc]
      rw [hstep]
      rcases ih with h | ⟨h1, h2⟩
      · exact Or.inl h
      · exact Or.inr ⟨h1, script_mem_trans (read_script_suffix hres) h2⟩
  | case2 f size acc hacc st bytes f' hres hnr hlt =>
      have hstep : file_read_fully_go f size acc = (st, acc, f') := by
        rw [file_read_fully_go]
        simp [hres, hacc, hnr, hlt]
      have e1 : (file_read_fully_go f size acc).1 = st := by rw [hstep]
      rw [e1]
      exact Or.inr ⟨hlt, read_bad_mem hres hnr hlt⟩
  | case3 f size acc hacc st bytes f' hres hnr hlt hz =>
      have hstep : file_read_fully_go f size acc = (.OK, acc, f') := by
        rw [file_read_fully_go]
        simp [hres, hacc, hnr, hlt, hz]
      have e1 : (file_read_fully_go f size acc).1 = .OK := by rw [hstep]
      exact Or.inl e1
  | case4 f size acc hacc st bytes f' hres hnr hlt hz ih =>
      have hstep : file_read_fully_go f size acc
          = file_read_fully_go f' size (acc ++ bytes) := by
        rw [file_read_fully_go]
        simp [hres, hacc, hnr, hlt, hz]
      rw [hstep]
      rcases ih with h | ⟨h1, h2⟩
      · exact Or.inl h
      · exact Or.inr ⟨h1, script_mem_trans (read_script_suffix hres) h2⟩
  | case5 f size acc hacc =>
      have hstep : file_read_fully_go f size acc = (.OK, acc, f) := by
        rw [file_read_fully_go]
        simp [hacc]
      have e1 : (file_read_fully_go f size acc).1 = .OK := by rw [hstep]
      exact Or.inl e1

/-- The status returned by the `file_write_fully` loop is `OK` unless a
scripted error was hit, in which case that error status is returned. -/
theorem file_write_fully_go_status (f : File) (buf : List Nat) (written : Nat) :
    (file_write_fully_go f buf written).1 = .OK ∨
      ((file_write_fully_go f buf written).1.toInt < 0 ∧
        Resp.err (file_write_fully_go f buf written).1 ∈ f.script) := by
  induction f, buf, written using file_write_fully_go.induct with
  | case1 f buf written hw n f' hres ih =>
      have hstep : file_write_fully_go f buf written
          = file_write_fully_go f' buf written := by
        rw [file_write_fully_go]
        simp [hres, hw]
      rw [hstep]
      rcases ih with h | ⟨h1, h2⟩
      · exact Or.inl h
      · exact Or.inr ⟨h1, script_mem_trans (write_script_suffix hres) h2⟩
  | case2 f buf written hw st n f' hres hnr hlt =>
      have hstep : file_write_fully_go f buf written = (st, written, f') := by
        rw [file_write_fully_go]
        simp [hres, hw, hnr, hlt]
      have e1 : (file_write_fully_go f buf written).1 = st := by rw [hstep]
      rw [e1]
      exact Or.inr ⟨hlt, write_bad_mem hres hnr hlt⟩
  | case3 f buf written hw st f' hres hnr hlt =>
      have hstep : file_write_fully_go f buf written = (.OK, written, f') := by
        rw [file_write_fully_go]
        simp [hres, hw, hnr, hlt]
      have e1 : (file_write_fully_go f buf written).1 = .OK := by rw [hstep]
      exact Or.inl e1
  | case4 f buf written hw st n f' hres hnr hlt hz ih =>
      have hstep : file_write_fully_go f buf written
          = file_write_fully_go f' buf (written + n) := by
        rw [file_write_fully_go]
        simp [hres, hw, hnr, hlt, hz]
      rw [hstep]
      rcases ih with h | ⟨h1, h2⟩
      · exact Or.inl h
      · exact Or.inr ⟨h1, script_mem_trans (write_script_suffix hres) h2⟩
  | case5 f buf written hw =>
      have hstep : file_write_fully_go f buf written = (.OK, written, f) := by
        rw [file_write_fully_go]
        simp [hw]
      have e1 : (file_write_fully_go f buf written).1 = .OK := by rw [hstep]
      exact Or.inl e1

/-- On an error-free script, the `file_read_fully` loop transfers
exactly the requested amount or everything available. -/
theorem file_read_fully_go_count (f : File) (size : Nat) (acc : List Nat)
    (hne : noErr f.script) :
    (file_read_fully_go f size acc).2.1.length
      = acc.length + min (size - acc.length) (f.data.length - f.pos) := by
  induction f, size, acc using file_read_fully_go.induct with
  | case1 f size acc hacc bytes f' hres ih =>
      have hstep : file_read_fully_go f size acc = file_read_fully_go f' size acc := by
        rw [file_read_fully_go]
        simp [hres, hacc]
      have hb := read_retry_state hres rfl
      subst hb
      have h2 := read_data hres
      have h3 := read_pos hres
      simp only [List.length_nil, Nat.add_zero] at h3
      rw [hstep, ih (read_noErr hres hne), h2, h3]
  | case2 f size acc hacc st bytes f' hres hnr hlt =>
      exact absurd rfl (hne _ (read_bad_mem hres hnr hlt) st)
  | case3 f size acc hacc st bytes f' hres hnr hlt hz =>
      have hstep : file_read_fully_go f size acc = (.OK, acc, f') := by
        rw [file_read_fully_go]
        simp [hres, hacc, hnr, hlt, hz]
      have e2 : (file_read_fully_go f size acc).2.1 = acc := by rw [hstep]
      have hav := read_nil_avail hres hne hnr (List.eq_nil_of_length_eq_zero hz)
        (by omega)
      rw [e2]
      omega
  | case4 f size acc hacc st bytes f' hres hnr hlt hz ih =>
      have hstep : file_read_fully_go f size acc
          = file_read_fully_go f' size (acc ++ bytes) := by
        rw [file_read_fully_go]
        simp [hres, hacc, hnr, hlt, hz]
      have h2 := read_data hres
      have h3 := read_pos hres
      have h4 := read_bytes_le hres
      have h5 := read_bytes_avail hres
      have ih2 := ih (read_noErr hres hne)
      rw [h2, h3] at ih2
      simp only [List.length_append] at ih2
      rw [hstep, ih2]
      omega
  | case5 f size acc hacc =>
      have hstep : file_read_fully_go f size acc = (.OK, acc, f) := by
        rw [file_read_fully_go]
        simp [hacc]
      have e2 : (file_read_fully_go f size acc).2.1 = acc := by rw [hstep]
      rw [e2]
      omega

/-- On an error-free script, the `file_write_fully` loop transfers the
whole buffer. -/
theorem file_write_fully_go_count (f : File) (buf : List Nat) (written : Nat)
    (hne : noErr f.script) (hw : written ≤ buf.length) :
    (file_write_fully_go f buf written).2.1 = buf.length := by
  induction f, buf, written using file_write_fully_go.induct with
  | case1 f buf written hwlt n f' hres ih =>
      have hstep : file_write_fully_go f buf written
          = file_write_fully_go f' buf written := by
        rw [file_write_fully_go]
        simp [hres, hwlt]
      rw [hstep]
      exact ih (write_noErr hres hne) hw
  | case2 f buf written hwlt st n f' hres hnr hlt =>
      exact absurd rfl (hne _ (write_bad_mem hres hnr hlt) st)
  | case3 f buf written hwlt st f' hnr hlt hres =>
      have hone := write_min_one hres hne hnr (by simp [List.length_drop]; omega)
      omega
  | case4 f buf written hwlt st n f' hres hnr hlt hz ih =>
      have hstep : file_write_fully_go f buf written
          = file_write_fully_go f' buf (written + n) := by
        rw [file_write_fully_go]
        simp [hres, hwlt, hnr, hlt, hz]
      have h4 := write_count_le hres
      simp only [List.length_drop] at h4
      rw [hstep]
      exact ih (write_noErr hres hne) (by omega)
  | case5 f buf written hwlt =>
      have hstep : file_write_fully_go f buf written = (.OK, written, f) := by
        rw [file_write_fully_go]
        simp [hwlt]
      have e2 : (file_write_fully_go f buf written).2.1 = written := by rw [hstep]
      omega

/-- The `file_write_fully` loop advances the position by exactly the
number of bytes it reports written. -/
theorem file_write_fully_go_pos (f : File) (buf : List Nat) (written : Nat) :
    (file_write_fully_go f buf written).2.2.pos + written
      = f.pos + (file_write_fully_go f buf written).2.1 := by
  induction f, buf, written using file_write_fully_go.induct with
  | case1 f buf written hwlt n f' hres ih =>
      have hstep : file_write_fully_go f buf written
          = file_write_fully_go f' buf written := by
        rw [file_write_fully_go]
        simp [hres, hwlt]
      have h1 := write_pos_adv hres
      have h2 := write_retry_count hres rfl
      rw [hstep]
      omega
  | case2 f buf written hwlt st n f' hres hnr hlt =>
      have hstep : file_write_fully_go f buf written = (st, written, f') := by
        rw [file_write_fully_go]
        simp [hres, hwlt, hnr, hlt]
      have e2 : (file_write_fully_go f buf written).2.1 = written := by rw [hstep]
      have e3 : (file_write_fully_go f buf written).2.2 = f' := by rw [hstep]
      have h1 := write_pos_adv hres
      have h2 := write_bad_count hres hnr hlt
      rw [e2, e3]
      omega
  | case3 f buf written hwlt st f' hnr hlt hres =>
      have hstep : file_write_fully_go f buf written = (.OK, written, f') := by
        rw [file_write_fully_go]
        simp [hres, hwlt, hnr, hlt]
      have e2 : (file_write_fully_go f buf written).2.1 = written := by rw [hstep]
      have e3 : (file_write_fully_go f buf written).2.2 = f' := by rw [hstep]
      have h1 := write_pos_adv hres
      rw [e2, e3]
      omega
  | case4 f buf written hwlt st n f' hres hnr hlt hz ih =>
      have hstep : file_write_fully_go f buf written
          = file_write_fully_go f' buf (written + n) := by
        rw [file_write_fully_go]
        simp [hres, hwlt, hnr, hlt, hz]
      have h1 := write_pos_adv hres
      rw [hstep]
      omega
  | case5 f buf written hwlt =>
      have hstep : file_write_fully_go f buf written = (.OK, written, f) := by
        rw [file_write_fully_go]
        simp [hwlt]
      have e2 : (file_write_fully_go f buf written).2.1 = written := by rw [hstep]
      have e3 : (file_write_fully_go f buf written).2.2 = f := by rw [hstep]
      rw [e2, e3]

set_option maxHeartbeats 1000000 in
/-- The forward move loop never reports more than `max moved size`. -/
theorem file_move_fwd_count (chunk : Nat) (f : File) (src dest size moved : Nat) :
    (file_move_fwd chunk f src dest size moved).2.1 ≤ max moved size := by
  induction f, src, dest, size, moved using file_move_fwd.induct chunk with
  | case1 f src dest size moved hlt sst2 f3 hseek hne =>
      rw [file_move_fwd.eq_def]
      simp_all
  | case2 f src dest size moved hlt sst2 f3 hseek hsok st bytes f' hread hne =>
      rw [file_move_fwd.eq_def]
      simp_all
  | case3 f src dest size moved hlt sst2 f3 hseek hsok st bytes f' hread hok hz =>
      rw [file_move_fwd.eq_def]
      simp_all
  | case4 f src dest size moved hlt sst2 f3 hseek hsok st bytes f' hread hok hnz
      sst2b f3b hseek2 hs2ne =>
      rw [file_move_fwd.eq_def]
      simp_all
  | case5 f src dest size moved hlt sst2 f3 hseek hsok st bytes f' hread hok hnz
      sst2b f3b hseek2 hs2ok stw n f4 hwrite hwne =>
      rw [file_move_fwd.eq_def]
      simp_all
  | case6 f src dest size moved hlt sst2 f3 hseek hsok st bytes f' hread hok hnz
      sst2b f3b hseek2 hs2ok stw n f4 hwrite hwok hshort =>
      rw [file_move_fwd.eq_def]
      simp_all
      have hb := file_read_fully_len_le f3 (min chunk (size - moved))
      rw [hread] at hb
      simp at hb
      have hw := file_write_fully_count_le f3b bytes
      rw [hwrite] at hw
      simp at hw
      omega
  | case7 f src dest size moved hlt sst2 f3 hseek hsok st bytes f' hread hok hnz
      sst2b f3b hseek2 hs2ok stw n f4 hwrite hwok hnshort ih =>
      rw [file_move_fwd.eq_def]
      simp_all
      rw [if_neg (by omega)]
      have hb := file_read_fully_len_le f3 (min chunk (size - moved))
      rw [hread] at hb
      simp at hb
      have hw := file_write_fully_count_le f3b bytes
      rw [hwrite] at hw
      simp at hw
      omega
  | case8 f src dest size moved hge =>
      have hnlt : ¬ moved < size := by omega
      rw [file_move_fwd.eq_def]
      simp [hnlt]

set_option maxHeartbeats 1000000 in
/-- The backward move loop never reports more than `max moved size`. -/
theorem file_move_bwd_count (chunk : Nat) (f : File) (src dest size moved : Nat) :
    (file_move_bwd chunk f src dest size moved).2.1 ≤ max moved size := by
  induction f, src, dest, size, moved using file_move_bwd.induct chunk with
  | case1 f src dest size moved hlt sst2 f3 hseek hne =>
      rw [file_move_bwd.eq_def]
      simp_all
  | case2 f src dest size moved hlt sst2 f3 hseek hsok st bytes f' hread hne =>
      rw [file_move_bwd.eq_def]
      simp_all
  | case3 f src dest size moved hlt sst2 f3 hseek hsok st bytes f' hread hok hz =>
      rw [file_move_bwd.eq_def]
      simp_all
  | case4 f src dest size moved hlt sst2 f3 hseek hsok st bytes f' hread hok hnz
      sst2b f3b hseek2 hs2ne =>
      rw [file_move_bwd.eq_def]
      simp_all
  | case5 f src dest size moved hlt sst2 f3 hseek hsok st bytes f' hread hok hnz
      sst2b f3b hseek2 hs2ok stw n f4 hwrite hwne =>
      rw [file_move_bwd.eq_def]
      simp_all
  | case6 f src dest size moved hlt sst2 f3 hseek hsok st bytes f' hread hok hnz
      sst2b f3b hseek2 hs2ok stw n f4 hwrite hwok hshort ih =>
      rw [file_move_bwd.eq_def]
      simp_all
      have hb := file_read_fully_len_le f3 (min chunk (size - moved))
      rw [hread] at hb
      simp at hb
      have hw := file_write_fully_count_le f3b bytes
      rw [hwrite] at hw
      simp at hw
      omega
  | case7 f src dest size moved hlt sst2 f3 hseek hsok st bytes f' hread hok hnz
      sst2b f3b hseek2 hs2ok stw n f4 hwrite hwok hnshort ih =>
      rw [file_move_bwd.eq_def]
      simp_all
      have hb := file_read_fully_len_le f3 (min chunk (size - moved))
      rw [hread] at hb
      simp at hb
      have hw := file_write_fully_count_le f3b bytes
      rw [hwrite] at hw
      simp at hw
      omega
  | case8 f src dest size moved hge =>
      have hnlt : ¬ moved < size := by omega
      rw [file_move_bwd.eq_def]
      simp [hnlt]

/-- C7: `file_read_fully` never returns `RETRY` (every scripted `RETRY`
is absorbed by reissuing the call), advances the position by exactly
the count it reports even on failure (so the count reflects the bytes
moved before a failure), and on a handle whose script never fails it
returns `OK` having transferred `min size available` bytes — the full
request when at least `size` bytes are available, everything available
otherwise.  `file_write_fully` behaves symmetrically, transferring the
whole buffer. -/
theorem claim_C7_read_write_fully (f : File) (size : Nat) (buf : List Nat) :
    (file_read_fully f size).1 ≠ .RETRY ∧
    (file_write_fully f buf).1 ≠ .RETRY ∧
    (file_read_fully f size).2.2.pos = f.pos + (file_read_fully f size).2.1.length ∧
    (file_write_fully f buf).2.2.pos = f.pos + (file_write_fully f buf).2.1 ∧
    (noErr f.script →
      (file_read_fully f size).1 = .OK ∧
      (file_read_fully f size).2.1.length = min size (f.data.length - f.pos) ∧
      (file_write_fully f buf).1 = .OK ∧
      (file_write_fully f buf).2.1 = buf.length) := by
  have hrs := file_read_fully_go_status f size []
  have hws := file_write_fully_go_status f buf 0
  rw [show file_read_fully_go f size [] = file_read_fully f size from rfl] at hrs
  rw [show file_write_fully_go f buf 0 = file_write_fully f buf from rfl] at hws
  refine ⟨?_, ?_, file_read_fully_pos f size, ?_, fun hne => ⟨?_, ?_, ?_, ?_⟩⟩
  · rcases hrs with h | ⟨h, _⟩
    · rw [h]
      simp
    · intro hc
      rw [hc] at h
      simp [FileStatus.toInt] at h
  · rcases hws with h | ⟨h, _⟩
    · rw [h]
      simp
    · intro hc
      rw [hc] at h
      simp [FileStatus.toInt] at h
  · have := file_write_fully_go_pos f buf 0
    rw [show file_write_fully_go f buf 0 = file_write_fully f buf from rfl] at this
    omega
  · rcases hrs with h | ⟨_, hmem⟩
    · exact h
    · exact absurd rfl (hne _ hmem _)
  · have := file_read_fully_go_count f size [] hne
    rw [show file_read_fully_go f size [] = file_read_fully f size from rfl] at this
    simpa using this
  · rcases hws with h | ⟨_, hmem⟩
    · exact h
    · exact absurd rfl (hne _ hmem _)
  · have := file_write_fully_go_count f buf 0 hne (by omega)
    rw [show file_write_fully_go f buf 0 = file_write_fully f buf from rfl] at this
    exact this

/-- C7 witness: a handle holding 3 bytes whose script begins with one
`RETRY`; a request for 5 bytes returns `OK` with the 3 available
bytes, and a 2-byte write transfers 2 bytes. -/
theorem claim_C7_read_write_fully_witness :
    noErr ([Resp.retry] : List Resp) ∧
    (file_read_fully ⟨[1, 2, 3], 0, true, [.retry], none⟩ 5).1 = .OK ∧
    (file_read_fully ⟨[1, 2, 3], 0, true, [.retry], none⟩ 5).2.1.length = 3 ∧
    (file_write_fully ⟨[1, 2, 3], 0, true, [.retry], none⟩ [7, 8]).2.1 = 2 := by
  have hne : noErr ([Resp.retry] : List Resp) := by
    intro r hr s
    simp at hr
    simp [hr]
  have h := (claim_C7_read_write_fully ⟨[1, 2, 3], 0, true, [.retry], none⟩ 5
    [7, 8]).2.2.2.2 hne
  refine ⟨hne, h.1, ?_, h.2.2.2⟩
  have := h.2.1
  simpa using this

/-- C10: on every return — success or failure — the transfer counts
never exceed the requested amount: `bytes_read ≤ size` for
`file_read_fully`, `bytes_written ≤ size` for `file_write_fully`, and
`size_moved ≤ size` for `file_move` (either copy direction, including
the backward path that shrinks the remaining total at end of file). -/
theorem claim_C10_counts_bounded (f : File) (size : Nat) (buf : List Nat)
    (src dest : Nat) :
    (file_read_fully f size).2.1.length ≤ size ∧
    (file_write_fully f buf).2.1 ≤ buf.length ∧
    (file_move f src dest size).2.1 ≤ size := by
  refine ⟨file_read_fully_len_le f size, file_write_fully_count_le f buf, ?_⟩
  rw [file_move, file_move_chunked]
  by_cases h1 : src = dest ∨ size = 0
  · rw [if_pos h1]
  · rw [if_neg h1]
    by_cases h2 : UINT64_MAX - size < src ∨ UINT64_MAX - size < dest
    · rw [if_pos h2]
      simp
    · rw [if_neg h2]
      by_cases h3 : dest < src
      · rw [if_pos h3]
        have := file_move_fwd_count 10240 f src dest size 0
        simpa using this
      · rw [if_neg h3]
        have := file_move_bwd_count 10240 f src dest size 0
        simpa using this

/-- With a callback that never asks to continue (it always answers
`WARN` or a failure), the inner scan performs at most one invocation
and never recurses. -/
theorem search_inner_const (p0 : Nat) (prest : List Nat) (buffer : List Nat)
    (n : Nat) (offset : Nat) (endo : Int) (s : FileStatus)
    (hs : s = .WARN ∨ s.toInt < 0) (m remain : Nat) (acc : List Nat)
    (budget : Int) :
    search_inner p0 prest buffer n offset endo (fun _ _ => s) m remain acc budget
        = .cont acc budget remain ∨
      search_inner p0 prest buffer n offset endo (fun _ _ => s) m remain acc budget
        = .done .OK acc ∨
      (∃ o, search_inner p0 prest buffer n offset endo (fun _ _ => s) m remain acc
          budget = .done (if s = .WARN then .OK else s) (acc ++ [o])) := by
  rw [search_inner.eq_def]
  split
  · exact Or.inl rfl
  · rename_i i hmm
    by_cases hb : 0 ≤ endo ∧ endo.toNat < offset + (m + i) + (prest.length + 1)
    · rw [if_pos hb]
      exact Or.inr (Or.inl rfl)
    · rw [if_neg hb]
      by_cases hw : s = .WARN
      · rw [if_pos hw, if_pos hw]
        exact Or.inr (Or.inr ⟨_, rfl⟩)
      · rw [if_neg hw, if_neg hw]
        rcases hs with h | h
        · exact absurd h hw
        · rw [if_pos h]
          exact Or.inr (Or.inr ⟨_, rfl⟩)

theorem search_inner_eq_none {p0 : Nat} {prest buffer : List Nat} {n offset : Nat}
    {endo : Int} {cb : List Nat → Nat → FileStatus} {m remain : Nat}
    {acc : List Nat} {budget : Int}
    (hmm : mb_memmem ((buffer.drop m).take remain) (p0 :: prest) = none) :
    search_inner p0 prest buffer n offset endo cb m remain acc budget
      = .cont acc budget remain := by
  rw [search_inner.eq_def]
  split
  · rfl
  · rename_i i heq
    rw [heq] at hmm
    simp at hmm

theorem search_inner_eq_some {p0 : Nat} {prest buffer : List Nat} {n offset : Nat}
    {endo : Int} {cb : List Nat → Nat → FileStatus} {m remain : Nat}
    {acc : List Nat} {budget : Int} {i : Nat}
    (hmm : mb_memmem ((buffer.drop m).take remain) (p0 :: prest) = some i) :
    search_inner p0 prest buffer n offset endo cb m remain acc budget
      = (if 0 ≤ endo ∧ endo.toNat < offset + (m + i) + (prest.length + 1) then
          .done .OK acc
        else if cb acc (offset + (m + i)) = .WARN then
          .done .OK (acc ++ [offset + (m + i)])
        else if (cb acc (offset + (m + i))).toInt < 0 then
          .done (cb acc (offset + (m + i))) (acc ++ [offset + (m + i)])
        else if 0 < budget ∧ budget - 1 = 0 then
          .done .OK (acc ++ [offset + (m + i)])
        else if prest.length + 1 ≤ remain then
          search_inner p0 prest buffer n offset endo cb (m + i + (prest.length + 1))
            (n - (m + i + (prest.length + 1))) (acc ++ [offset + (m + i)])
            (if 0 < budget then budget - 1 else budget)
        else
          .cont (acc ++ [offset + (m + i)]) (if 0 < budget then budget - 1 else budget)
            remain) := by
  rw [search_inner.eq_def]
  split
  · rename_i heq
    rw [heq] at hmm
    simp at hmm
  · rename_i j heq
    rw [heq] at hmm
    simp at hmm
    rw [hmm]

theorem file_search_loop_eq {p0 : Nat} {prest : List Nat} {endo : Int}
    {cb : List Nat → Nat → FileStatus} {buf_size : Nat} {f : File}
    {tail : List Nat} {offset : Nat} {acc : List Nat} {budget : Int}
    {rst : FileStatus} {bytes : List Nat} {f' : File}
    (hread : file_read_fully f (buf_size - tail.length) = (rst, bytes, f')) :
    file_search_loop p0 prest endo cb buf_size f tail offset acc budget
      = (if rst.toInt < 0 then (rst, acc, f')
        else if _h : (tail ++ bytes).length < prest.length + 1 then (.OK, acc, f')
        else if 0 ≤ endo ∧ endo.toNat ≤ offset then (.OK, acc, f')
        else if UINT64_MAX - offset < (tail ++ bytes).length then
          (.FAILED, acc, f'.set_error .INTERNAL_ERROR)
        else
          match search_inner p0 prest (tail ++ bytes) (tail ++ bytes).length offset
              endo cb 0 (tail ++ bytes).length acc budget with
          | .done st acc' => (st, acc', f')
          | .cont acc' bud rem =>
              file_search_loop p0 prest endo cb buf_size f'
                ((tail ++ bytes).drop ((tail ++ bytes).length - min rem prest.length))
                (offset + ((tail ++ bytes).length - min rem prest.length)) acc' bud) := by
  rw [file_search_loop.eq_def]
  split
  rename_i rst2 bytes2 f2 heq
  rw [heq] at hread
  simp only [Prod.mk.injEq] at hread
  rw [hread.1, hread.2.1, hread.2.2]

/-- Every run of `file_search` either stops before scanning with an
empty match list, or reduces to a run of the sliding-window loop
started with an empty accumulator and the full match budget. -/
theorem file_search_cases (f : File) (start endo : Int) (bsize : Nat)
    (pat : List Nat) (mm : Int) (cb : List Nat → Nat → FileStatus) :
    (file_search f start endo bsize pat mm cb).2.1 = [] ∨
    ∃ p0 prest buf_size f1 offset,
      pat = p0 :: prest ∧
      file_search f start endo bsize pat mm cb
        = file_search_loop p0 prest endo cb buf_size f1 [] offset [] mm := by
  rw [file_search.eq_def]
  by_cases h1 : 0 ≤ start ∧ 0 ≤ endo ∧ endo < start
  · rw [if_pos h1]
    left
    rfl
  · rw [if_neg h1]
    cases pat with
    | nil =>
        left
        rfl
    | cons p0 prest =>
        by_cases h2 : mm = 0
        · left
          simp [h2]
        · by_cases h3 : searchBufSize bsize (prest.length + 1) < prest.length + 1
          · left
            simp [h2, h3]
          · rcases hseek : f.seek (searchStart start) with ⟨sst, f1⟩
            by_cases h4 : sst = .UNSUPPORTED
            · rcases hdisc : file_read_discard f1 (searchStart start)
                with ⟨dst, disc, f2⟩
              by_cases h5 : dst.toInt < 0
              · left
                simp [h2, h3, hseek, h4, h5, hdisc]
              · by_cases h6 : disc = searchStart start
                · right
                  refine ⟨p0, prest, searchBufSize bsize (p0 :: prest).length,
                    f2, searchStart start, rfl, ?_⟩
                  simp [h2, h3, hseek, h4, h5, h6, hdisc]
                · left
                  simp [h2, h3, hseek, h4, h5, h6, hdisc]
            · by_cases h5 : sst.toInt < 0
              · left
                simp [h2, h3, hseek, h4, h5]
              · right
                refine ⟨p0, prest, searchBufSize bsize (p0 :: prest).length,
                  f1, searchStart start, rfl, ?_⟩
                simp [h2, h3, hseek, h4, h5]

/-- With a constant callback answering `WARN` (or a fixed failure), the
sliding-window loop reports at most one match; if it reported one, the
final status is `OK` for `WARN` and the failure status otherwise. -/
theorem file_search_loop_const (p0 : Nat) (prest : List Nat) (endo : Int)
    (s : FileStatus) (hs : s = .WARN ∨ s.toInt < 0) (buf_size : Nat) (f : File)
    (tail : List Nat) (offset : Nat) (acc : List Nat) (budget : Int)
    (hacc : acc = []) :
    (file_search_loop p0 prest endo (fun _ _ => s) buf_size f tail offset acc
        budget).2.1.length ≤ 1 ∧
    ((file_search_loop p0 prest endo (fun _ _ => s) buf_size f tail offset acc
        budget).2.1 ≠ [] →
      (file_search_loop p0 prest endo (fun _ _ => s) buf_size f tail offset acc
        budget).1 = (if s = .WARN then .OK else s)) := by
  induction f, tail, offset, acc, budget using file_search_loop.induct p0 prest endo
    (fun _ _ => s) buf_size with
  | case1 f tail offset acc budget st bytes f' hres h1 =>
      subst hacc
      rw [file_search_loop_eq hres, if_pos h1]
      simp
  | case2 f tail offset acc budget st bytes f' hres h1 hn =>
      subst hacc
      rw [file_search_loop_eq hres, if_neg h1, dif_pos hn]
      simp
  | case3 f tail offset acc budget st bytes f' hres h1 hn h3 =>
      subst hacc
      rw [file_search_loop_eq hres, if_neg h1, dif_neg hn, if_pos h3]
      simp
  | case4 f tail offset acc budget st bytes f' hres h1 hn h3 h4 =>
      subst hacc
      rw [file_search_loop_eq hres, if_neg h1, dif_neg hn, if_neg h3, if_pos h4]
      simp
  | case5 f tail offset acc budget st bytes f' hres h1 hn h3 h4 st2 acc2 hinner =>
      subst hacc
      rw [file_search_loop_eq hres, if_neg h1, dif_neg hn, if_neg h3, if_neg h4]
      rcases search_inner_const p0 prest (tail ++ bytes) (tail ++ bytes).length
          offset endo s hs 0 (tail ++ bytes).length [] budget with h | h | ⟨o, h⟩
      · rw [hinner] at h
        simp at h
      · rw [hinner] at h
        simp only [InnerRes.done.injEq] at h
        rw [hinner, h.1, h.2]
        simp
      · rw [hinner] at h
        simp only [InnerRes.done.injEq] at h
        rw [hinner, h.1, h.2]
        simp
  | case6 f tail offset acc budget st bytes f' hres h1 hn h3 h4 acc2 bud2 rem2
      hinner ih =>
      subst hacc
      rw [file_search_loop_eq hres, if_neg h1, dif_neg hn, if_neg h3, if_neg h4]
      rcases search_inner_const p0 prest (tail ++ bytes) (tail ++ bytes).length
          offset endo s hs 0 (tail ++ bytes).length [] budget with h | h | ⟨o, h⟩
      · rw [hinner] at h
        simp only [InnerRes.cont.injEq] at h
        rw [hinner]
        simp only []
        exact ih h.1
      · rw [hinner] at h
        simp at h
      · rw [hinner] at h
        simp at h


/-- Offsets separated by at least `ps`: every element is at least `ps`
beyond its predecessor (non-overlapping, strictly increasing matches). -/
def sepBy (ps : Nat) : List Nat → Prop
  | [] => True
  | [_] => True
  | a :: b :: t => a + ps ≤ b ∧ sepBy ps (b :: t)

theorem sepBy_snoc {ps : Nat} {acc : List Nat} {x : Nat} (hsep : sepBy ps acc)
    (hbd : ∀ a ∈ acc, a + ps ≤ x) : sepBy ps (acc ++ [x]) := by
  induction acc with
  | nil => trivial
  | cons a t ih =>
      cases t with
      | nil => exact ⟨hbd a (by simp), trivial⟩
      | cons b u =>
          obtain ⟨h1, h2⟩ := hsep
          exact ⟨h1, ih h2 (fun c hc => hbd c (List.mem_cons_of_mem _ hc))⟩

/-- The inner match loop preserves separation: starting from reported
offsets that are `pattern_size`-separated and all at least `pattern_size`
before the current scan position, every outcome's offset list is again
separated, and on a `cont` outcome the offsets stay `pattern_size` clear
of the next scan position. -/
theorem search_inner_sep (p0 : Nat) (prest buffer : List Nat) (n offset : Nat)
    (endo : Int) (cb : List Nat → Nat → FileStatus) (m remain : Nat)
    (acc : List Nat) (budget : Int) :
    m + remain = n → n = buffer.length →
    sepBy (prest.length + 1) acc →
    (∀ a ∈ acc, a + (prest.length + 1) ≤ offset + m) →
    (∀ st acc', search_inner p0 prest buffer n offset endo cb m remain acc budget
        = .done st acc' → sepBy (prest.length + 1) acc') ∧
    (∀ acc' bud rem,
      search_inner p0 prest buffer n offset endo cb m remain acc budget
        = .cont acc' bud rem →
      sepBy (prest.length + 1) acc' ∧
        ∀ a ∈ acc', a + (prest.length + 1) ≤ offset + (n - rem)) := by
  induction m, remain, acc, budget
    using search_inner.induct p0 prest buffer n offset endo cb with
  | case1 m remain acc budget hmm =>
      intro hmn hnb hsep hbd
      have hstep := @search_inner_eq_none p0 prest buffer n offset endo cb m
        remain acc budget hmm
      refine ⟨?_, ?_⟩
      · intro st acc' h
        rw [hstep] at h
        simp at h
      · intro acc' bud rem h
        rw [hstep] at h
        simp only [InnerRes.cont.injEq] at h
        rw [← h.1, ← h.2.2]
        refine ⟨hsep, fun a ha => ?_⟩
        have := hbd a ha
        omega
  | case2 m remain acc budget i hmm hend =>
      intro hmn hnb hsep hbd
      have hstep := @search_inner_eq_some p0 prest buffer n offset endo cb m
        remain acc budget i hmm
      rw [if_pos hend] at hstep
      refine ⟨?_, ?_⟩
      · intro st acc' h
        rw [hstep] at h
        simp only [InnerRes.done.injEq] at h
        rw [← h.2]
        exact hsep
      · intro acc' bud rem h
        rw [hstep] at h
        simp at h
  | case3 m remain acc budget i hmm hend hwarn =>
      intro hmn hnb hsep hbd
      have hstep := @search_inner_eq_some p0 prest buffer n offset endo cb m
        remain acc budget i hmm
      rw [if_neg hend, if_pos hwarn] at hstep
      refine ⟨?_, ?_⟩
      · intro st acc' h
        rw [hstep] at h
        simp only [InnerRes.done.injEq] at h
        rw [← h.2]
        exact sepBy_snoc hsep (fun a ha => by have := hbd a ha; omega)
      · intro acc' bud rem h
        rw [hstep] at h
        simp at h
  | case4 m remain acc budget i hmm hend hwarn hbad =>
      intro hmn hnb hsep hbd
      have hstep := @search_inner_eq_some p0 prest buffer n offset endo cb m
        remain acc budget i hmm
      rw [if_neg hend, if_neg hwarn, if_pos hbad] at hstep
      refine ⟨?_, ?_⟩
      · intro st acc' h
        rw [hstep] at h
        simp only [InnerRes.done.injEq] at h
        rw [← h.2]
        exact sepBy_snoc hsep (fun a ha => by have := hbd a ha; omega)
      · intro acc' bud rem h
        rw [hstep] at h
        simp at h
  | case5 m remain acc budget i hmm hend hwarn hbad hbud =>
      intro hmn hnb hsep hbd
      have hstep := @search_inner_eq_some p0 prest buffer n offset endo cb m
        remain acc budget i hmm
      rw [if_neg hend, if_neg hwarn, if_neg hbad, if_pos hbud] at hstep
      refine ⟨?_, ?_⟩
      · intro st acc' h
        rw [hstep] at h
        simp only [InnerRes.done.injEq] at h
        rw [← h.2]
        exact sepBy_snoc hsep (fun a ha => by have := hbd a ha; omega)
      · intro acc' bud rem h
        rw [hstep] at h
        simp at h
  | case6 m remain acc budget i hmm hend hwarn hbad hbud hrem ih =>
      intro hmn hnb hsep hbd
      have hb := mb_memmem_le (by simp) hmm
      simp [List.length_take, List.length_drop] at hb
      have hstep := @search_inner_eq_some p0 prest buffer n offset endo cb m
        remain acc budget i hmm
      rw [if_neg hend, if_neg hwarn, if_neg hbad, if_neg hbud, if_pos hrem] at hstep
      simp only [dite_eq_ite] at ih
      have hmn2 : m + i + (prest.length + 1) + (n - (m + i + (prest.length + 1))) = n := by
        omega
      have hsep2 : sepBy (prest.length + 1) (acc ++ [offset + (m + i)]) :=
        sepBy_snoc hsep (fun a ha => by have := hbd a ha; omega)
      have hbd2 : ∀ a ∈ acc ++ [offset + (m + i)],
          a + (prest.length + 1) ≤ offset + (m + i + (prest.length + 1)) := by
        intro a ha
        rcases List.mem_append.mp ha with ha | ha
        · have := hbd a ha
          omega
        · have hax : a = offset + (m + i) := by simpa using ha
          omega
      have hrec := ih hmn2 hnb hsep2 hbd2
      rw [hstep]
      exact hrec
  | case7 m remain acc budget i hmm hend hwarn hbad hbud hrem =>
      intro hmn hnb hsep hbd
      exfalso
      have hb := mb_memmem_le (by simp) hmm
      simp [List.length_take, List.length_drop] at hb
      omega

/-- The outer sliding-window loop preserves separation of the reported
offsets across window refills: the retained tail advances the running
offset far enough that no overlapping occurrence can be re-reported. -/
theorem file_search_loop_sep (p0 : Nat) (prest : List Nat) (endo : Int)
    (cb : List Nat → Nat → FileStatus) (buf_size : Nat) (f : File)
    (tail : List Nat) (offset : Nat) (acc : List Nat) (budget : Int) :
    sepBy (prest.length + 1) acc →
    (∀ a ∈ acc, a + (prest.length + 1) ≤ offset) →
    sepBy (prest.length + 1)
      (file_search_loop p0 prest endo cb buf_size f tail offset acc budget).2.1 := by
  induction f, tail, offset, acc, budget
    using file_search_loop.induct p0 prest endo cb buf_size with
  | case1 f tail offset acc budget st bytes f' hres h1 =>
      intro hsep hbd
      rw [file_search_loop_eq hres, if_pos h1]
      exact hsep
  | case2 f tail offset acc budget st bytes f' hres h1 hn =>
      intro hsep hbd
      rw [file_search_loop_eq hres, if_neg h1, dif_pos hn]
      exact hsep
  | case3 f tail offset acc budget st bytes f' hres h1 hn h3 =>
      intro hsep hbd
      rw [file_search_loop_eq hres, if_neg h1, dif_neg hn, if_pos h3]
      exact hsep
  | case4 f tail offset acc budget st bytes f' hres h1 hn h3 h4 =>
      intro hsep hbd
      rw [file_search_loop_eq hres, if_neg h1, dif_neg hn, if_neg h3, if_pos h4]
      exact hsep
  | case5 f tail offset acc budget st bytes f' hres h1 hn h3 h4 st2 acc2 hinner =>
      intro hsep hbd
      rw [file_search_loop_eq hres, if_neg h1, dif_neg hn, if_neg h3, if_neg h4,
        hinner]
      exact (search_inner_sep p0 prest (tail ++ bytes) (tail ++ bytes).length
        offset endo cb 0 (tail ++ bytes).length acc budget (by omega) rfl hsep
        (fun a ha => by have := hbd a ha; omega)).1 st2 acc2 hinner
  | case6 f tail offset acc budget st bytes f' hres h1 hn h3 h4 acc2 bud2 rem2
      hinner ih =>
      intro hsep hbd
      rw [file_search_loop_eq hres, if_neg h1, dif_neg hn, if_neg h3, if_neg h4,
        hinner]
      have hc := (search_inner_sep p0 prest (tail ++ bytes) (tail ++ bytes).length
        offset endo cb 0 (tail ++ bytes).length acc budget (by omega) rfl hsep
        (fun a ha => by have := hbd a ha; omega)).2 acc2 bud2 rem2 hinner
      exact ih hc.1 (fun a ha => by have := hc.2 a ha; omega)

/-- C3: in every invocation of `file_search`, the offsets reported to
the callback are strictly increasing and non-overlapping — each later
match starts at least `pattern_size` bytes after the previous one —
including matches found in different fills of the sliding window. -/
theorem claim_C3_matches_separated (f : File) (start endo : Int) (bsize : Nat)
    (pat : List Nat) (mm : Int) (cb : List Nat → Nat → FileStatus) :
    sepBy pat.length (file_search f start endo bsize pat mm cb).2.1 := by
  rcases file_search_cases f start endo bsize pat mm cb
    with h | ⟨p0, prest, bs, f1, off, hpat, heq⟩
  · rw [h]
    trivial
  · rw [heq, hpat]
    simp only [List.length_cons]
    exact file_search_loop_sep p0 prest endo cb bs f1 [] off [] mm trivial
      (by simp)

/-- The offsets accumulated in an inner-loop outcome. -/
def InnerRes.accOf : InnerRes → List Nat
  | .done _ a => a
  | .cont a _ _ => a

/-- With a non-negative `end` boundary, the inner match loop never adds
a reported offset whose end (`offset + pattern_size`) exceeds the
boundary: the boundary check fires first and stops the scan. -/
theorem search_inner_end (p0 : Nat) (prest buffer : List Nat) (n offset : Nat)
    (endo : Int) (cb : List Nat → Nat → FileStatus) (hend0 : 0 ≤ endo)
    (m remain : Nat) (acc : List Nat) (budget : Int) :
    (∀ a ∈ acc, a + (prest.length + 1) ≤ endo.toNat) →
    ∀ a ∈ (search_inner p0 prest buffer n offset endo cb m remain acc
        budget).accOf,
      a + (prest.length + 1) ≤ endo.toNat := by
  induction m, remain, acc, budget
    using search_inner.induct p0 prest buffer n offset endo cb with
  | case1 m remain acc budget hmm =>
      intro hacc
      rw [@search_inner_eq_none p0 prest buffer n offset endo cb m remain acc
        budget hmm]
      exact hacc
  | case2 m remain acc budget i hmm hend =>
      intro hacc
      rw [@search_inner_eq_some p0 prest buffer n offset endo cb m remain acc
        budget i hmm, if_pos hend]
      exact hacc
  | case3 m remain acc budget i hmm hend hwarn =>
      intro hacc
      rw [@search_inner_eq_some p0 prest buffer n offset endo cb m remain acc
        budget i hmm, if_neg hend, if_pos hwarn]
      intro a ha
      rcases List.mem_append.mp ha with ha | ha
      · exact hacc a ha
      · have hax : a = offset + (m + i) := by simpa using ha
        rw [Classical.not_and_iff_or_not_not] at hend
        rcases hend with hc | hc
        · exact absurd hend0 hc
        · omega
  | case4 m remain acc budget i hmm hend hwarn hbad =>
      intro hacc
      rw [@search_inner_eq_some p0 prest buffer n offset endo cb m remain acc
        budget i hmm, if_neg hend, if_neg hwarn, if_pos hbad]
      intro a ha
      rcases List.mem_append.mp ha with ha | ha
      · exact hacc a ha
      · have hax : a = offset + (m + i) := by simpa using ha
        rw [Classical.not_and_iff_or_not_not] at hend
        rcases hend with hc | hc
        · exact absurd hend0 hc
        · omega
  | case5 m remain acc budget i hmm hend hwarn hbad hbud =>
      intro hacc
      rw [@search_inner_eq_some p0 prest buffer n offset endo cb m remain acc
        budget i hmm, if_neg hend, if_neg hwarn, if_neg hbad, if_pos hbud]
      intro a ha
      rcases List.mem_append.mp ha with ha | ha
      · exact hacc a ha
      · have hax : a = offset + (m + i) := by simpa using ha
        rw [Classical.not_and_iff_or_not_not] at hend
        rcases hend with hc | hc
        · exact absurd hend0 hc
        · omega
  | case6 m remain acc budget i hmm hend hwarn hbad hbud hrem ih =>
      intro hacc
      rw [@search_inner_eq_some p0 prest buffer n offset endo cb m remain acc
        budget i hmm, if_neg hend, if_neg hwarn, if_neg hbad, if_neg hbud,
        if_pos hrem]
      simp only [dite_eq_ite] at ih
      apply ih
      intro a ha
      rcases List.mem_append.mp ha with ha | ha
      · exact hacc a ha
      · have hax : a = offset + (m + i) := by simpa using ha
        rw [Classical.not_and_iff_or_not_not] at hend
        rcases hend with hc | hc
        · exact absurd hend0 hc
        · omega
  | case7 m remain acc budget i hmm hend hwarn hbad hbud hrem =>
      intro hacc
      rw [@search_inner_eq_some p0 prest buffer n offset endo cb m remain acc
        budget i hmm, if_neg hend, if_neg hwarn, if_neg hbad, if_neg hbud,
        if_neg hrem]
      intro a ha
      rcases List.mem_append.mp ha with ha | ha
      · exact hacc a ha
      · have hax : a = offset + (m + i) := by simpa using ha
        rw [Classical.not_and_iff_or_not_not] at hend
        rcases hend with hc | hc
        · exact absurd hend0 hc
        · omega

/-- With a non-negative `end` boundary, the sliding-window loop reports
no offset whose end exceeds the boundary. -/
theorem file_search_loop_end (p0 : Nat) (prest : List Nat) (endo : Int)
    (cb : List Nat → Nat → FileStatus) (buf_size : Nat) (hend0 : 0 ≤ endo)
    (f : File) (tail : List Nat) (offset : Nat) (acc : List Nat)
    (budget : Int) :
    (∀ a ∈ acc, a + (prest.length + 1) ≤ endo.toNat) →
    ∀ a ∈ (file_search_loop p0 prest endo cb buf_size f tail offset acc
        budget).2.1,
      a + (prest.length + 1) ≤ endo.toNat := by
  induction f, tail, offset, acc, budget
    using file_search_loop.induct p0 prest endo cb buf_size with
  | case1 f tail offset acc budget st bytes f' hres h1 =>
      intro hacc
      rw [file_search_loop_eq hres, if_pos h1]
      exact hacc
  | case2 f tail offset acc budget st bytes f' hres h1 hn =>
      intro hacc
      rw [file_search_loop_eq hres, if_neg h1, dif_pos hn]
      exact hacc
  | case3 f tail offset acc budget st bytes f' hres h1 hn h3 =>
      intro hacc
      rw [file_search_loop_eq hres, if_neg h1, dif_neg hn, if_pos h3]
      exact hacc
  | case4 f tail offset acc budget st bytes f' hres h1 hn h3 h4 =>
      intro hacc
      rw [file_search_loop_eq hres, if_neg h1, dif_neg hn, if_neg h3, if_pos h4]
      exact hacc
  | case5 f tail offset acc budget st bytes f' hres h1 hn h3 h4 st2 acc2 hinner =>
      intro hacc
      rw [file_search_loop_eq hres, if_neg h1, dif_neg hn, if_neg h3, if_neg h4,
        hinner]
      have := search_inner_end p0 prest (tail ++ bytes) (tail ++ bytes).length
        offset endo cb hend0 0 (tail ++ bytes).length acc budget hacc
      rw [hinner] at this
      exact this
  | case6 f tail offset acc budget st bytes f' hres h1 hn h3 h4 acc2 bud2 rem2
      hinner ih =>
      intro hacc
      rw [file_search_loop_eq hres, if_neg h1, dif_neg hn, if_neg h3, if_neg h4,
        hinner]
      apply ih
      have := search_inner_end p0 prest (tail ++ bytes) (tail ++ bytes).length
        offset endo cb hend0 0 (tail ++ bytes).length acc budget hacc
      rw [hinner] at this
      exact this

/-- C4: with a non-negative `end` argument no match whose end offset
(`match offset + pattern_size`) exceeds `end` is ever reported to the
callback; the concrete scenario shows the search stopping with overall
success when it encounters such a match: content `"abababab"`, pattern
`"abab"`, `end = 6` — the match at 0 (end 4) is reported, the match at
4 (end 8 > 6) stops the search successfully without being reported. -/
theorem claim_C4_end_boundary (f : File) (start endo : Int) (bsize : Nat)
    (pat : List Nat) (mm : Int) (cb : List Nat → Nat → FileStatus)
    (hend0 : 0 ≤ endo) :
    (∀ o ∈ (file_search f start endo bsize pat mm cb).2.1,
      o + pat.length ≤ endo.toNat) ∧
    file_search ⟨[97, 98, 97, 98, 97, 98, 97, 98], 0, true, [], none⟩ (-1) 6 16
        [97, 98, 97, 98] (-1) (fun _ _ => .OK)
      = (.OK, [0], ⟨[97, 98, 97, 98, 97, 98, 97, 98], 8, true, [], none⟩) := by
  constructor
  · rcases file_search_cases f start endo bsize pat mm cb
      with h | ⟨p0, prest, bs, f1, off, hpat, heq⟩
    · rw [h]
      intro o ho
      simp at ho
    · rw [heq, hpat]
      simp only [List.length_cons]
      exact file_search_loop_end p0 prest endo cb bs hend0 f1 [] off [] mm
        (by simp)
  · rw [file_search]
    simp [File.seek, FileStatus.toInt, searchBufSize, searchStart]
    rw [file_search_loop_eq (file_read_fully_clean _ _ _ _ _)]
    simp [FileStatus.toInt, UINT64_MAX, searchBufSize, searchStart]
    have hsome1 : mb_memmem ((([97, 98, 97, 98, 97, 98, 97, 98] :
        List Nat).drop 0).take 8) [97, 98, 97, 98] = some 0 := by decide
    rw [search_inner_eq_some hsome1]
    simp [FileStatus.toInt]
    have hsome2 : mb_memmem ((([97, 98, 97, 98, 97, 98, 97, 98] :
        List Nat).drop 4).take 4) [97, 98, 97, 98] = some 0 := by decide
    rw [search_inner_eq_some hsome2]
    simp [FileStatus.toInt]

/-- C4 witness: the theorem applied at a concrete non-negative `end`. -/
theorem claim_C4_end_boundary_witness :
    ((0 : Int) ≤ (0 : Int)) ∧
    ∀ o ∈ (file_search ⟨[1, 2], 0, true, [], none⟩ 0 0 4 [9] (-1)
        (fun _ _ => .OK)).2.1,
      o + ([9] : List Nat).length ≤ (0 : Int).toNat :=
  ⟨by decide,
    (claim_C4_end_boundary ⟨[1, 2], 0, true, [], none⟩ 0 0 4 [9] (-1)
      (fun _ _ => .OK) (by decide)).1⟩

/-- Discarding 100 bytes from a 40-byte handle stops at end of file
with 40 bytes discarded. -/
theorem read_discard_short (L : List Nat) (sk : Bool) (hL : L.length = 40) :
    file_read_discard ⟨L, 0, sk, [], none⟩ 100
      = (.OK, 40, ⟨L, 40, sk, [], none⟩) := by
  have hnr : (FileStatus.OK ≠ FileStatus.RETRY) := by simp
  have hge : ¬ (FileStatus.OK.toInt < 0) := by simp [FileStatus.toInt]
  have hmin : min (100 : Nat) 10240 = 100 := by norm_num
  have h1 : ((L.drop 0).take 100).length = 40 := by
    simp [List.length_take, List.length_drop]
    omega
  have h2 : ((L.drop (0 + 40)).take 100).length = 0 := by
    simp [List.length_take, List.length_drop]
    omega
  rw [file_read_discard]
  rw [file_read_discard_go]
  rw [dif_pos (by norm_num)]
  simp only [hmin, read_clean]
  rw [dif_neg hnr, if_neg hge]
  rw [dif_neg (by rw [h1]; norm_num)]
  rw [h1]
  rw [file_read_discard_go]
  rw [dif_pos (by norm_num)]
  simp only [hmin, read_clean]
  rw [dif_neg hnr, if_neg hge]
  rw [dif_pos h2]
  rw [h2]

/-- Discarding 10241 bytes from a 10242-byte handle over-reads: the
per-iteration request is `min(size, 10240)`, so the second read takes 2
bytes instead of the single remaining one, and 10242 bytes are
consumed and reported. -/
theorem read_discard_overrun (L : List Nat) (sk : Bool)
    (hL : L.length = 10242) :
    file_read_discard ⟨L, 0, sk, [], none⟩ 10241
      = (.OK, 10242, ⟨L, 10242, sk, [], none⟩) := by
  have hnr : (FileStatus.OK ≠ FileStatus.RETRY) := by simp
  have hge : ¬ (FileStatus.OK.toInt < 0) := by simp [FileStatus.toInt]
  have hmin : min (10241 : Nat) 10240 = 10240 := by norm_num
  have h1 : ((L.drop 0).take 10240).length = 10240 := by
    simp [List.length_take, List.length_drop]
    omega
  have h2 : ((L.drop (0 + 10240)).take 10240).length = 2 := by
    simp [List.length_take, List.length_drop]
    omega
  rw [file_read_discard]
  rw [file_read_discard_go]
  rw [dif_pos (by norm_num)]
  simp only [hmin, read_clean]
  rw [dif_neg hnr, if_neg hge]
  rw [dif_neg (by rw [h1]; norm_num)]
  rw [h1]
  rw [file_read_discard_go]
  rw [dif_pos (by norm_num)]
  simp only [hmin, read_clean]
  rw [dif_neg hnr, if_neg hge]
  rw [dif_neg (by rw [h2]; norm_num)]
  rw [h2]
  rw [file_read_discard_go]
  rw [dif_neg (by norm_num)]

/-- C8: on a handle whose seek reports unsupported, `file_search` falls
back to read-and-discard positioning.  The premature-EOF half holds
(40 bytes available, `start = 100` → fatal invalid-argument), but the
claim's positive half is refuted by the code: with `start = 10241` and
10242 bytes available — at least `start` bytes — the buggy discard
consumes 10242 bytes, the `discarded != offset` check fires, and the
call fails fatally with invalid-argument instead of scanning. -/
theorem claim_C8_seek_unsupported (L40 L : List Nat) (hL40 : L40.length = 40)
    (hL : L.length = 10242) :
    file_search ⟨L40, 0, false, [], none⟩ 100 (-1) 16 [1, 2] (-1)
        (fun _ _ => .OK)
      = (.FATAL, [], ⟨L40, 40, false, [], some .INVALID_ARGUMENT⟩) ∧
    file_search ⟨L, 0, false, [], none⟩ 10241 (-1) 16 [1, 2] (-1)
        (fun _ _ => .OK)
      = (.FATAL, [], ⟨L, 10242, false, [], some .INVALID_ARGUMENT⟩) := by
  constructor
  · rw [file_search]
    simp [File.seek, searchBufSize, searchStart,
      read_discard_short L40 false hL40, FileStatus.toInt, File.set_error]
  · rw [file_search]
    simp [File.seek, searchBufSize, searchStart,
      read_discard_overrun L false hL, FileStatus.toInt, File.set_error]

/-- C8 witness: the theorem at concrete contents. -/
theorem claim_C8_seek_unsupported_witness :
    file_search ⟨List.replicate 40 7, 0, false, [], none⟩ 100 (-1) 16 [1, 2]
        (-1) (fun _ _ => .OK)
      = (.FATAL, [],
          ⟨List.replicate 40 7, 40, false, [], some .INVALID_ARGUMENT⟩) :=
  (claim_C8_seek_unsupported (List.replicate 40 7) (List.replicate 10242 9)
    (by rw [List.length_replicate]) (by rw [List.length_replicate])).1

/-- C9: an explicit non-zero `buffer_size` smaller than the pattern
size makes `file_search` fail with invalid-argument before any I/O on
the handle — the returned handle differs from the input only in the
recorded error, so no read, write or seek has touched its position,
contents or pending behaviour.  An explicit `buffer_size` equal to the
pattern size is accepted: searching `[5, 6]` for pattern `[5, 6]` with
`buffer_size = 2` scans the whole handle and reports the match at 0. -/
theorem claim_C9_buffer_validation (f : File) (start endo : Int) (bsize : Nat)
    (pat : List Nat) (mm : Int) (cb : List Nat → Nat → FileStatus)
    (hb0 : bsize ≠ 0) (hlt : bsize < pat.length) (hmm : mm ≠ 0)
    (hrange : ¬(0 ≤ start ∧ 0 ≤ endo ∧ endo < start)) :
    file_search f start endo bsize pat mm cb
      = (.FAILED, [], f.set_error .INVALID_ARGUMENT) ∧
    file_search ⟨[5, 6], 0, true, [], none⟩ (-1) (-1) 2 [5, 6] (-1)
        (fun _ _ => .OK)
      = (.OK, [0], ⟨[5, 6], 2, true, [], none⟩) := by
  constructor
  · rw [file_search.eq_def]
    rw [if_neg hrange]
    cases pat with
    | nil => exact absurd hlt (by simp)
    | cons p0 prest =>
        simp only []
        rw [if_neg hmm]
        have hbs : searchBufSize bsize (p0 :: prest).length = bsize := by
          rw [searchBufSize, if_pos hb0]
        rw [if_pos (by rw [hbs]; exact hlt)]
  · rw [file_search]
    simp [File.seek, FileStatus.toInt, searchBufSize, searchStart]
    rw [file_search_loop_eq (file_read_fully_clean _ _ _ _ _)]
    simp [FileStatus.toInt, UINT64_MAX]
    have hsome1 : mb_memmem ((([5, 6] : List Nat).drop 0).take 2) [5, 6]
        = some 0 := by decide
    rw [search_inner_eq_some hsome1]
    simp [FileStatus.toInt]
    have hnone : mb_memmem ((([5, 6] : List Nat).drop 2).take 0) [5, 6]
        = none := by decide
    rw [search_inner_eq_none hnone]
    simp only []
    rw [file_search_loop_eq (file_read_fully_clean _ _ _ _ _)]
    simp [FileStatus.toInt]

/-- C9 witness: the theorem at a concrete undersized buffer. -/
theorem claim_C9_buffer_validation_witness :
    file_search ⟨[], 0, true, [], none⟩ 0 (-1) 1 [1, 2] (-1) (fun _ _ => .OK)
      = (.FAILED, [], File.set_error ⟨[], 0, true, [], none⟩ .INVALID_ARGUMENT) :=
  (claim_C9_buffer_validation ⟨[], 0, true, [], none⟩ 0 (-1) 1 [1, 2] (-1)
    (fun _ _ => .OK) (by decide) (by decide) (by decide) (by decide)).1

theorem length_take_pad (d : List Nat) (p : Nat) :
    ((d ++ List.replicate (p - d.length) 0).take p).length = p := by
  simp [List.length_take, List.length_append, List.length_replicate]
  omega

theorem take_pad_eq (d : List Nat) (p k k' : Nat) (hk : p ≤ d.length + k)
    (hk' : p ≤ d.length + k') :
    (d ++ List.replicate k 0).take p = (d ++ List.replicate k' 0).take p := by
  by_cases hp : p ≤ d.length
  · rw [List.take_append_of_le_length hp, List.take_append_of_le_length hp]
  · have e : p = d.length + (p - d.length) := by omega
    rw [e, List.take_append, List.take_append, List.take_replicate,
      List.take_replicate]
    congr 2
    omega

/-- Splicing a concatenation equals splicing the first part, then the
second at the advanced position. -/
theorem writeAt_append (d : List Nat) (p : Nat) (b1 b2 : List Nat) :
    writeAt d p (b1 ++ b2) = writeAt (writeAt d p b1) (p + b1.length) b2 := by
  by_cases h1 : b1 = []
  · subst h1
    simp [writeAt_nil]
  · by_cases h2 : b2 = []
    · subst h2
      simp [writeAt_nil]
    · have e1 : writeAt d p b1
          = (d ++ List.replicate (p - d.length) 0).take p ++ b1
            ++ d.drop (p + b1.length) := by
        rw [writeAt, if_neg h1]
      rw [writeAt, if_neg (by simp [h1] : ¬ b1 ++ b2 = [])]
      rw [writeAt, if_neg h2, e1]
      have ht : ((d ++ List.replicate (p - d.length) 0).take p).length = p :=
        length_take_pad d p
      have htb : ((d ++ List.replicate (p - d.length) 0).take p ++ b1).length
          = p + b1.length := by
        simp [List.length_append, ht]
      have hpad : (p + b1.length)
          - ((d ++ List.replicate (p - d.length) 0).take p ++ b1
              ++ d.drop (p + b1.length)).length = 0 := by
        simp [List.length_append, ht]
      rw [hpad]
      simp only [List.replicate_zero, List.append_nil]
      have hassoc : (d ++ List.replicate (p - d.length) 0).take p ++ b1
            ++ d.drop (p + b1.length)
          = ((d ++ List.replicate (p - d.length) 0).take p ++ b1)
            ++ d.drop (p + b1.length) := by
        simp [List.append_assoc]
      rw [hassoc]
      rw [List.take_left' htb]
      have hdrop : (((d ++ List.replicate (p - d.length) 0).take p ++ b1)
            ++ d.drop (p + b1.length)).drop (p + b1.length + b2.length)
          = d.drop (p + (b1.length + b2.length)) := by
        have e2 : p + b1.length + b2.length
            = ((d ++ List.replicate (p - d.length) 0).take p ++ b1).length
              + b2.length := by
          rw [htb]
        rw [e2, List.drop_append, List.drop_drop]
        congr 1
        omega
      rw [hdrop]
      simp [List.append_assoc]

/-- Splicing a concatenation equals splicing the second part at the
advanced position, then the first. -/
theorem writeAt_prepend (d : List Nat) (p : Nat) (b1 b2 : List Nat) :
    writeAt d p (b1 ++ b2) = writeAt (writeAt d (p + b1.length) b2) p b1 := by
  by_cases h1 : b1 = []
  · subst h1
    simp [writeAt_nil]
  · by_cases h2 : b2 = []
    · subst h2
      simp [writeAt_nil]
    · have e1 : writeAt d (p + b1.length) b2
          = (d ++ List.replicate (p + b1.length - d.length) 0).take
              (p + b1.length) ++ b2 ++ d.drop (p + b1.length + b2.length) := by
        rw [writeAt, if_neg h2]
      rw [writeAt, if_neg (by simp [h1] : ¬ b1 ++ b2 = [])]
      rw [writeAt, if_neg h1, e1]
      have ht : ((d ++ List.replicate (p + b1.length - d.length) 0).take
          (p + b1.length)).length = p + b1.length :=
        length_take_pad d (p + b1.length)
      have hpad : p - ((d ++ List.replicate (p + b1.length - d.length) 0).take
            (p + b1.length) ++ b2 ++ d.drop (p + b1.length + b2.length)).length
          = 0 := by
        simp [List.length_append, ht]
        omega
      rw [hpad]
      simp only [List.replicate_zero, List.append_nil]
      have htake : ((d ++ List.replicate (p + b1.length - d.length) 0).take
            (p + b1.length) ++ b2
            ++ d.drop (p + b1.length + b2.length)).take p
          = (d ++ List.replicate (p - d.length) 0).take p := by
        have hp1 : p ≤ ((d ++ List.replicate (p + b1.length - d.length) 0).take
            (p + b1.length)).length := by
          rw [ht]
          omega
        rw [List.append_assoc, List.take_append_of_le_length hp1,
          List.take_take]
        have hmin : min p (p + b1.length) = p := by omega
        rw [hmin]
        exact take_pad_eq d p _ _ (by omega) (by omega)
      rw [htake]
      have hdrop : ((d ++ List.replicate (p + b1.length - d.length) 0).take
            (p + b1.length) ++ b2
            ++ d.drop (p + b1.length + b2.length)).drop (p + b1.length)
          = b2 ++ d.drop (p + (b1.length + b2.length)) := by
        have hassoc : (d ++ List.replicate (p + b1.length - d.length) 0).take
              (p + b1.length) ++ b2 ++ d.drop (p + b1.length + b2.length)
            = (d ++ List.replicate (p + b1.length - d.length) 0).take
              (p + b1.length) ++ (b2 ++ d.drop (p + b1.length + b2.length)) := by
          simp [List.append_assoc]
        rw [hassoc, List.drop_left' ht]
        congr 2
        omega
      rw [hdrop]
      simp [List.append_assoc]

/-- A splice leaves the file untouched from `p + buf.length` on. -/
theorem writeAt_drop_ge (d : List Nat) (p : Nat) (buf : List Nat) (q : Nat)
    (hq : p + buf.length ≤ q) :
    (writeAt d p buf).drop q = d.drop q := by
  by_cases h1 : buf = []
  · subst h1
    rw [writeAt_nil]
  · rw [writeAt, if_neg h1]
    have ht : ((d ++ List.replicate (p - d.length) 0).take p).length = p :=
      length_take_pad d p
    have htb : ((d ++ List.replicate (p - d.length) 0).take p ++ buf).length
        = p + buf.length := by
      simp [List.length_append, ht]
    have hassoc : (d ++ List.replicate (p - d.length) 0).take p ++ buf
          ++ d.drop (p + buf.length)
        = ((d ++ List.replicate (p - d.length) 0).take p ++ buf)
          ++ d.drop (p + buf.length) := by
      simp [List.append_assoc]
    rw [hassoc]
    have e2 : q = ((d ++ List.replicate (p - d.length) 0).take p ++ buf).length
        + (q - (p + buf.length)) := by
      rw [htb]
      omega
    rw [e2, List.drop_append, List.drop_drop]
    congr 1
    omega

/-- A splice leaves any window that ends at or before `p` untouched. -/
theorem writeAt_window_lt (d : List Nat) (p : Nat) (buf : List Nat)
    (rs c : Nat) (hc : rs + c ≤ p) (hd : rs + c ≤ d.length) :
    ((writeAt d p buf).drop rs).take c = (d.drop rs).take c := by
  by_cases h1 : buf = []
  · subst h1
    rw [writeAt_nil]
  · rw [writeAt, if_neg h1]
    have ht : ((d ++ List.replicate (p - d.length) 0).take p).length = p :=
      length_take_pad d p
    have hdt : ((d ++ List.replicate (p - d.length) 0).take p).drop rs
        = ((d ++ List.replicate (p - d.length) 0).drop rs).take (p - rs) := by
      rw [List.drop_take]
    have hstep : (((d ++ List.replicate (p - d.length) 0).take p ++ buf
          ++ d.drop (p + buf.length)).drop rs).take c
        = ((((d ++ List.replicate (p - d.length) 0).take p).drop rs)
            ++ (buf ++ d.drop (p + buf.length))).take c := by
      rw [List.append_assoc, List.drop_append_of_le_length (by rw [ht]; omega)]
    rw [hstep]
    rw [List.take_append_of_le_length (by simp [List.length_drop, ht]; omega)]
    rw [hdt, List.take_take]
    have hmin : min c (p - rs) = c := by omega
    rw [hmin]
    have hdd : (d ++ List.replicate (p - d.length) 0).drop rs
        = d.drop rs ++ List.replicate (p - d.length) 0 := by
      rw [List.drop_append_of_le_length (by omega)]
    rw [hdd]
    rw [List.take_append_of_le_length (by simp [List.length_drop]; omega)]

/-- Splicing a region of the file onto itself changes nothing. -/
theorem writeAt_self (d : List Nat) (p k : Nat) (h : p + k ≤ d.length) :
    writeAt d p ((d.drop p).take k) = d := by
  by_cases h1 : (d.drop p).take k = []
  · rw [h1, writeAt_nil]
  · rw [writeAt, if_neg h1]
    have hlen : ((d.drop p).take k).length = k := by
      simp [List.length_take, List.length_drop]
      omega
    rw [List.take_append_of_le_length (by omega), hlen]
    have hdd : d.drop (p + k) = (d.drop p).drop k := by
      rw [List.drop_drop]
    rw [hdd]
    rw [List.append_assoc, List.take_append_drop, List.take_append_drop]

theorem seek_clean (L : List Nat) (pos : Nat) (err : Option FileError)
    (off : Nat) :
    File.seek ⟨L, pos, true, [], err⟩ off = (.OK, ⟨L, off, true, [], err⟩) := rfl

/-- Forward copy on a clean seekable handle: starting from a state where
the first `moved` bytes of the region are already in place, the loop
completes the whole logical move. -/
theorem file_move_fwd_clean (chunk : Nat) (d : List Nat) (src dest size : Nat)
    (hc : 0 < chunk) (hds : dest < src) (hss : src + size ≤ d.length) :
    ∀ (fuel moved pos : Nat), size - moved ≤ fuel → moved ≤ size →
    ∃ pos', file_move_fwd chunk
        ⟨writeAt d dest ((d.drop src).take moved), pos, true, [], none⟩
        src dest size moved
      = (.OK, size,
          ⟨writeAt d dest ((d.drop src).take size), pos', true, [], none⟩) := by
  intro fuel
  induction fuel with
  | zero =>
      intro moved pos hf hm
      have hms : moved = size := by omega
      subst hms
      refine ⟨pos, ?_⟩
      rw [file_move_fwd.eq_def]
      rw [dif_neg (by omega)]
  | succ n ih =>
      intro moved pos hf hm
      by_cases hlt : moved < size
      · have hmlen : ((d.drop src).take moved).length = moved := by
          simp [List.length_take, List.length_drop]
          omega
        have hDdrop : (writeAt d dest ((d.drop src).take moved)).drop
              (src + moved) = d.drop (src + moved) :=
          writeAt_drop_ge d dest _ (src + moved) (by rw [hmlen]; omega)
        have hblen : ((d.drop (src + moved)).take
            (min chunk (size - moved))).length = min chunk (size - moved) := by
          simp [List.length_take, List.length_drop]
          omega
        have hc1 : 0 < min chunk (size - moved) := by omega
        have hglue : writeAt (writeAt d dest ((d.drop src).take moved))
              (dest + moved)
              ((d.drop (src + moved)).take (min chunk (size - moved)))
            = writeAt d dest
              ((d.drop src).take (moved + min chunk (size - moved))) := by
          have e : (d.drop src).take (moved + min chunk (size - moved))
              = (d.drop src).take moved
                ++ ((d.drop src).drop moved).take (min chunk (size - moved)) :=
            List.take_add (d.drop src) moved (min chunk (size - moved))
          have e2 : (d.drop src).drop moved = d.drop (src + moved) := by
            rw [List.drop_drop]
          rw [e, e2, writeAt_append, hmlen]
        rw [file_move_fwd.eq_def, dif_pos hlt]
        rw [seek_clean]
        simp only []
        rw [if_neg (by simp)]
        rw [file_read_fully_clean]
        simp only []
        rw [if_neg (by simp)]
        rw [hDdrop]
        rw [dif_neg (by rw [hblen]; omega)]
        rw [seek_clean]
        simp only []
        rw [if_neg (by simp)]
        rw [file_write_fully_clean]
        simp only []
        rw [if_neg (by simp)]
        rw [dif_neg (by omega)]
        rw [hglue, hblen]
        exact ih (moved + min chunk (size - moved)) _ (by omega) (by omega)
      · have hms : moved = size := by omega
        subst hms
        refine ⟨pos, ?_⟩
        rw [file_move_fwd.eq_def]
        rw [dif_neg (by omega)]

/-- Backward copy on a clean seekable handle: starting from a state
where the last `moved` bytes of the region are already in place, the
loop completes the whole logical move. -/
theorem file_move_bwd_clean (chunk : Nat) (d : List Nat) (src dest size : Nat)
    (hc : 0 < chunk) (hds : src < dest) (hss : src + size ≤ d.length) :
    ∀ (fuel moved pos : Nat), size - moved ≤ fuel → moved ≤ size →
    ∃ pos', file_move_bwd chunk
        ⟨writeAt d (dest + (size - moved))
            ((d.drop (src + (size - moved))).take moved), pos, true, [], none⟩
        src dest size moved
      = (.OK, size,
          ⟨writeAt d dest ((d.drop src).take size), pos', true, [], none⟩) := by
  intro fuel
  induction fuel with
  | zero =>
      intro moved pos hf hm
      have hms : moved = size := by omega
      subst hms
      simp only [Nat.sub_self, Nat.add_zero]
      refine ⟨pos, ?_⟩
      rw [file_move_bwd.eq_def]
      rw [dif_neg (by omega)]
  | succ n ih =>
      intro moved pos hf hm
      by_cases hlt : moved < size
      · rw [file_move_bwd.eq_def, dif_pos hlt]
        set c := min chunk (size - moved) with hcc
        have hc1 : 0 < c := by omega
        have hmlen : ((d.drop (src + (size - moved))).take moved).length
            = moved := by
          simp [List.length_take, List.length_drop]
          omega
        have hwin : ((writeAt d (dest + (size - moved))
              ((d.drop (src + (size - moved))).take moved)).drop
              (src + size - moved - c)).take c
            = (d.drop (src + size - moved - c)).take c :=
          writeAt_window_lt d _ _ _ _ (by omega) (by omega)
        have hblen : ((d.drop (src + size - moved - c)).take c).length = c := by
          simp [List.length_take, List.length_drop]
          omega
        have hglue : writeAt (writeAt d (dest + (size - moved))
              ((d.drop (src + (size - moved))).take moved))
              (dest + size - moved - c)
              ((d.drop (src + size - moved - c)).take c)
            = writeAt d (dest + (size - (moved + c)))
              ((d.drop (src + (size - (moved + c)))).take (moved + c)) := by
          have e1 : dest + (size - (moved + c)) = dest + size - moved - c := by
            omega
          have e2 : src + (size - (moved + c)) = src + size - moved - c := by
            omega
          have e3 : moved + c = c + moved := by omega
          rw [e1, e2, e3]
          rw [List.take_add (d.drop (src + size - moved - c)) c moved]
          rw [writeAt_prepend]
          have e4 : (d.drop (src + size - moved - c)).drop c
              = d.drop (src + (size - moved)) := by
            rw [List.drop_drop]
            congr 1
            omega
          rw [e4, hblen]
          have e6 : dest + size - moved - c + c = dest + (size - moved) := by
            omega
          rw [e6]
        rw [seek_clean]
        simp only []
        rw [if_neg (by simp)]
        rw [file_read_fully_clean]
        simp only []
        rw [if_neg (by simp)]
        rw [hwin, hblen]
        rw [dif_neg (by omega)]
        rw [seek_clean]
        simp only []
        rw [if_neg (by simp)]
        rw [file_write_fully_clean]
        simp only []
        rw [if_neg (by simp)]
        rw [hblen]
        rw [dif_neg (by omega)]
        rw [hglue]
        exact ih (moved + c) _ (by omega) (by omega)
      · have hms : moved = size := by omega
        subst hms
        simp only [Nat.sub_self, Nat.add_zero]
        refine ⟨pos, ?_⟩
        rw [file_move_bwd.eq_def]
        rw [dif_neg (by omega)]

/-- Modelled from the spec: the whole-buffer, non-chunked logical move —
read the entire source region `[src, src + size)` at once, then splice
it in at `dest` (standard `memmove` semantics). -/
def memmove_spec (d : List Nat) (src dest size : Nat) : List Nat :=
  writeAt d dest ((d.drop src).take size)

/-- C1: for every `src`, `dest`, `size` — overlapping ranges included —
on a clean seekable handle whose content contains the full source
region, `file_move` leaves the byte layout of a whole-buffer,
non-chunked `memmove`, and this holds for every positive internal chunk
size: the forward chunked copy (taken when `dest < src`) and the
backward chunked copy (taken when `dest > src`) both refine the
specification move. -/
theorem claim_C1_move_memmove (chunk : Nat) (d : List Nat)
    (pos src dest size : Nat) (hc : 0 < chunk) (hss : src + size ≤ d.length)
    (hsrc : src ≤ UINT64_MAX - size) (hdest : dest ≤ UINT64_MAX - size) :
    (∃ pos', file_move_chunked chunk ⟨d, pos, true, [], none⟩ src dest size
      = (.OK, size, ⟨memmove_spec d src dest size, pos', true, [], none⟩)) ∧
    (∃ pos', file_move ⟨d, pos, true, [], none⟩ src dest size
      = (.OK, size, ⟨memmove_spec d src dest size, pos', true, [], none⟩)) := by
  have main : ∀ ch : Nat, 0 < ch →
      ∃ pos', file_move_chunked ch ⟨d, pos, true, [], none⟩ src dest size
        = (.OK, size, ⟨memmove_spec d src dest size, pos', true, [], none⟩) := by
    intro ch hch
    rw [file_move_chunked]
    by_cases h0 : src = dest ∨ size = 0
    · rw [if_pos h0]
      refine ⟨pos, ?_⟩
      rcases h0 with h0 | h0
      · subst h0
        rw [memmove_spec, writeAt_self d src size hss]
      · subst h0
        simp [memmove_spec, writeAt_nil]
    · rw [if_neg h0]
      rw [if_neg (by simp only [not_or, not_lt]; exact ⟨hsrc, hdest⟩)]
      by_cases hdir : dest < src
      · rw [if_pos hdir]
        have hmove := file_move_fwd_clean ch d src dest size hch hdir hss
          size 0 pos (by omega) (by omega)
        simp only [List.take_zero, writeAt_nil] at hmove
        simp only [memmove_spec]
        exact hmove
      · rw [if_neg hdir]
        have hsd : src < dest := by omega
        have hmove := file_move_bwd_clean ch d src dest size hch hsd hss
          size 0 pos (by omega) (by omega)
        simp only [Nat.sub_zero, List.take_zero, writeAt_nil] at hmove
        simp only [memmove_spec]
        exact hmove
  refine ⟨main chunk hc, ?_⟩
  rw [file_move]
  exact main 10240 (by norm_num)

/-- C1 witness: an overlapping forward move (`src = 1`, `dest = 0`,
`size = 4` on five bytes) at chunk size 2. -/
theorem claim_C1_move_memmove_witness :
    ((0 : Nat) < 2 ∧ 1 + 4 ≤ ([1, 2, 3, 4, 5] : List Nat).length) ∧
    ∃ pos', file_move ⟨[1, 2, 3, 4, 5], 0, true, [], none⟩ 1 0 4
      = (.OK, 4, ⟨memmove_spec [1, 2, 3, 4, 5] 1 0 4, pos', true, [], none⟩) :=
  ⟨⟨by decide, by decide⟩,
    (claim_C1_move_memmove 2 [1, 2, 3, 4, 5] 0 1 0 4 (by decide) (by decide)
      (by norm_num [UINT64_MAX]) (by norm_num [UINT64_MAX])).2⟩

/-- Modelled from the spec: the total number of non-overlapping matches
of `pat` in `hay` — the greedy left-to-right count, advancing past each
full match. -/
def greedyCount (pat : List Nat) (hay : List Nat) : Nat :=
  match pat with
  | [] => 0
  | p0 :: prest =>
    match hmm : mb_memmem hay (p0 :: prest) with
    | none => 0
    | some i =>
        1 + greedyCount (p0 :: prest) (hay.drop (i + (prest.length + 1)))
termination_by hay.length
decreasing_by
  have hb := mb_memmem_le (by simp) hmm
  simp [List.length_drop]
  simp at hb
  omega

theorem greedyCount_eq_none {p0 : Nat} {prest hay : List Nat}
    (hmm : mb_memmem hay (p0 :: prest) = none) :
    greedyCount (p0 :: prest) hay = 0 := by
  rw [greedyCount.eq_def]
  simp only []
  split
  · rfl
  · rename_i i heq
    rw [heq] at hmm
    simp at hmm

theorem greedyCount_eq_some {p0 : Nat} {prest hay : List Nat} {i : Nat}
    (hmm : mb_memmem hay (p0 :: prest) = some i) :
    greedyCount (p0 :: prest) hay
      = 1 + greedyCount (p0 :: prest) (hay.drop (i + (prest.length + 1))) := by
  rw [greedyCount.eq_def]
  simp only []
  split
  · rename_i heq
    rw [heq] at hmm
    simp at hmm
  · rename_i j heq
    rw [heq] at hmm
    simp at hmm
    rw [hmm]

/-- Scanning a fully valid window with the always-`OK` callback and no
`end` boundary reports exactly `min budget (greedy matches)`: if the
greedy count is below the positive budget the scan exhausts the window
(`cont`) after reporting every match, otherwise it stops successfully
(`done`) after exactly `budget` reports. -/
theorem search_inner_greedy (p0 : Nat) (prest buffer : List Nat)
    (n offset : Nat) (m remain : Nat) (acc : List Nat) (budget : Int) :
    m + remain = n → n = buffer.length → 0 < budget →
    (greedyCount (p0 :: prest) (buffer.drop m) < budget.toNat →
      ∃ acc' bud rem,
        search_inner p0 prest buffer n offset (-1) (fun _ _ => .OK) m remain
          acc budget = .cont acc' bud rem ∧
        acc'.length = acc.length + greedyCount (p0 :: prest) (buffer.drop m)) ∧
    (budget.toNat ≤ greedyCount (p0 :: prest) (buffer.drop m) →
      ∃ acc',
        search_inner p0 prest buffer n offset (-1) (fun _ _ => .OK) m remain
          acc budget = .done .OK acc' ∧
        acc'.length = acc.length + budget.toNat) := by
  induction m, remain, acc, budget
    using search_inner.induct p0 prest buffer n offset (-1)
      (fun _ _ => .OK) with
  | case1 m remain acc budget hmm =>
      intro hmn hnb hbud
      have htr : (buffer.drop m).take remain = buffer.drop m :=
        List.take_of_length_le (by simp [List.length_drop]; omega)
      have hmm2 := hmm
      rw [htr] at hmm2
      have hg := greedyCount_eq_none hmm2
      refine ⟨?_, ?_⟩
      · intro _h
        exact ⟨acc, budget, remain,
          @search_inner_eq_none p0 prest buffer n offset (-1)
            (fun _ _ => .OK) m remain acc budget hmm,
          by rw [hg]; omega⟩
      · intro h
        rw [hg] at h
        exact absurd hbud (by omega)
  | case2 m remain acc budget i hmm hend =>
      intro hmn hnb hbud
      exact absurd hend (by omega)
  | case3 m remain acc budget i hmm hend hwarn =>
      intro hmn hnb hbud
      simp at hwarn
  | case4 m remain acc budget i hmm hend hwarn hbad =>
      intro hmn hnb hbud
      simp [FileStatus.toInt] at hbad
  | case5 m remain acc budget i hmm hend hwarn hbad hbud5 =>
      intro hmn hnb hbud
      have htr : (buffer.drop m).take remain = buffer.drop m :=
        List.take_of_length_le (by simp [List.length_drop]; omega)
      have hmm2 := hmm
      rw [htr] at hmm2
      have hg := greedyCount_eq_some hmm2
      have hstep := @search_inner_eq_some p0 prest buffer n offset (-1)
        (fun _ _ => .OK) m remain acc budget i hmm
      rw [if_neg hend, if_neg hwarn, if_neg hbad, if_pos hbud5] at hstep
      refine ⟨?_, ?_⟩
      · intro h
        rw [hg] at h
        exact absurd h (by omega)
      · intro _h
        refine ⟨acc ++ [offset + (m + i)], hstep, ?_⟩
        simp [List.length_append]
        omega
  | case6 m remain acc budget i hmm hend hwarn hbad hbud6 hrem ih =>
      intro hmn hnb hbud
      have htr : (buffer.drop m).take remain = buffer.drop m :=
        List.take_of_length_le (by simp [List.length_drop]; omega)
      have hmm2 := hmm
      rw [htr] at hmm2
      have hb := mb_memmem_le (by simp) hmm
      simp [List.length_take, List.length_drop] at hb
      have hg := greedyCount_eq_some hmm2
      have hdd : (buffer.drop m).drop (i + (prest.length + 1))
          = buffer.drop (m + i + (prest.length + 1)) := by
        rw [List.drop_drop]
        congr 1
        omega
      have hstep := @search_inner_eq_some p0 prest buffer n offset (-1)
        (fun _ _ => .OK) m remain acc budget i hmm
      rw [if_neg hend, if_neg hwarn, if_neg hbad, if_neg hbud6, if_pos hrem,
        if_pos hbud] at hstep
      simp only [dite_eq_ite, if_pos hbud] at ih
      have hrec := ih (by omega) hnb (by omega)
      refine ⟨?_, ?_⟩
      · intro h
        rw [hg, hdd] at h
        obtain ⟨acc', bud, rem, hres, hlen⟩ := hrec.1 (by omega)
        refine ⟨acc', bud, rem, by rw [hstep]; exact hres, ?_⟩
        rw [hg, hdd]
        simp [List.length_append] at hlen
        omega
      · intro h
        rw [hg, hdd] at h
        obtain ⟨acc', hres, hlen⟩ := hrec.2 (by omega)
        refine ⟨acc', by rw [hstep]; exact hres, ?_⟩
        simp [List.length_append] at hlen
        omega
  | case7 m remain acc budget i hmm hend hwarn hbad hbud5 hrem =>
      intro hmn hnb hbud
      exfalso
      have hb := mb_memmem_le (by simp) hmm
      simp [List.length_take, List.length_drop] at hb
      omega

/-- The inner match loop reports at most `budget` matches when the
budget is positive: a `done` outcome carries at most `budget` new
offsets, a `cont` outcome keeps its remaining budget positive and
conserves `reported + remaining budget`. -/
theorem search_inner_budget_le (p0 : Nat) (prest buffer : List Nat)
    (n offset : Nat) (endo : Int) (cb : List Nat → Nat → FileStatus)
    (m remain : Nat) (acc : List Nat) (budget : Int) :
    0 < budget →
    (∀ st acc',
      search_inner p0 prest buffer n offset endo cb m remain acc budget
        = .done st acc' → acc'.length ≤ acc.length + budget.toNat) ∧
    (∀ acc' bud rem,
      search_inner p0 prest buffer n offset endo cb m remain acc budget
        = .cont acc' bud rem →
      0 < bud ∧ acc'.length + bud.toNat ≤ acc.length + budget.toNat) := by
  induction m, remain, acc, budget
    using search_inner.induct p0 prest buffer n offset endo cb with
  | case1 m remain acc budget hmm =>
      intro hbud
      have hstep := @search_inner_eq_none p0 prest buffer n offset endo cb m
        remain acc budget hmm
      refine ⟨?_, ?_⟩
      · intro st acc' h
        rw [hstep] at h
        simp at h
      · intro acc' bud rem h
        rw [hstep] at h
        simp only [InnerRes.cont.injEq] at h
        rw [← h.1, ← h.2.1]
        omega
  | case2 m remain acc budget i hmm hend =>
      intro hbud
      have hstep := @search_inner_eq_some p0 prest buffer n offset endo cb m
        remain acc budget i hmm
      rw [if_pos hend] at hstep
      refine ⟨?_, ?_⟩
      · intro st acc' h
        rw [hstep] at h
        simp only [InnerRes.done.injEq] at h
        rw [← h.2]
        omega
      · intro acc' bud rem h
        rw [hstep] at h
        simp at h
  | case3 m remain acc budget i hmm hend hwarn =>
      intro hbud
      have hstep := @search_inner_eq_some p0 prest buffer n offset endo cb m
        remain acc budget i hmm
      rw [if_neg hend, if_pos hwarn] at hstep
      refine ⟨?_, ?_⟩
      · intro st acc' h
        rw [hstep] at h
        simp only [InnerRes.done.injEq] at h
        rw [← h.2]
        simp [List.length_append]
        omega
      · intro acc' bud rem h
        rw [hstep] at h
        simp at h
  | case4 m remain acc budget i hmm hend hwarn hbad =>
      intro hbud
      have hstep := @search_inner_eq_some p0 prest buffer n offset endo cb m
        remain acc budget i hmm
      rw [if_neg hend, if_neg hwarn, if_pos hbad] at hstep
      refine ⟨?_, ?_⟩
      · intro st acc' h
        rw [hstep] at h
        simp only [InnerRes.done.injEq] at h
        rw [← h.2]
        simp [List.length_append]
        omega
      · intro acc' bud rem h
        rw [hstep] at h
        simp at h
  | case5 m remain acc budget i hmm hend hwarn hbad hbud5 =>
      intro hbud
      have hstep := @search_inner_eq_some p0 prest buffer n offset endo cb m
        remain acc budget i hmm
      rw [if_neg hend, if_neg hwarn, if_neg hbad, if_pos hbud5] at hstep
      refine ⟨?_, ?_⟩
      · intro st acc' h
        rw [hstep] at h
        simp only [InnerRes.done.injEq] at h
        rw [← h.2]
        simp [List.length_append]
        omega
      · intro acc' bud rem h
        rw [hstep] at h
        simp at h
  | case6 m remain acc budget i hmm hend hwarn hbad hbud6 hrem ih =>
      intro hbud
      have hstep := @search_inner_eq_some p0 prest buffer n offset endo cb m
        remain acc budget i hmm
      rw [if_neg hend, if_neg hwarn, if_neg hbad, if_neg hbud6, if_pos hrem,
        if_pos hbud] at hstep
      simp only [dite_eq_ite, if_pos hbud] at ih
      have hrec := ih (by omega)
      refine ⟨?_, ?_⟩
      · intro st acc' h
        rw [hstep] at h
        have := hrec.1 st acc' h
        simp [List.length_append] at this
        omega
      · intro acc' bud rem h
        rw [hstep] at h
        have := hrec.2 acc' bud rem h
        simp [List.length_append] at this
        omega
  | case7 m remain acc budget i hmm hend hwarn hbad hbud6 hrem =>
      intro hbud
      have hstep := @search_inner_eq_some p0 prest buffer n offset endo cb m
        remain acc budget i hmm
      rw [if_neg hend, if_neg hwarn, if_neg hbad, if_neg hbud6, if_neg hrem,
        if_pos hbud] at hstep
      refine ⟨?_, ?_⟩
      · intro st acc' h
        rw [hstep] at h
        simp at h
      · intro acc' bud rem h
        rw [hstep] at h
        simp only [InnerRes.cont.injEq] at h
        rw [← h.1, ← h.2.1]
        simp [List.length_append]
        omega
  
/-- The sliding-window loop reports at most `budget` matches in total
when the budget is positive. -/
theorem file_search_loop_budget_le (p0 : Nat) (prest : List Nat) (endo : Int)
    (cb : List Nat → Nat → FileStatus) (buf_size : Nat) (f : File)
    (tail : List Nat) (offset : Nat) (acc : List Nat) (budget : Int) :
    0 < budget →
    (file_search_loop p0 prest endo cb buf_size f tail offset acc
        budget).2.1.length ≤ acc.length + budget.toNat := by
  induction f, tail, offset, acc, budget
    using file_search_loop.induct p0 prest endo cb buf_size with
  | case1 f tail offset acc budget st bytes f' hres h1 =>
      intro hbud
      rw [file_search_loop_eq hres, if_pos h1]
      simp
  | case2 f tail offset acc budget st bytes f' hres h1 hn =>
      intro hbud
      rw [file_search_loop_eq hres, if_neg h1, dif_pos hn]
      simp
  | case3 f tail offset acc budget st bytes f' hres h1 hn h3 =>
      intro hbud
      rw [file_search_loop_eq hres, if_neg h1, dif_neg hn, if_pos h3]
      simp
  | case4 f tail offset acc budget st bytes f' hres h1 hn h3 h4 =>
      intro hbud
      rw [file_search_loop_eq hres, if_neg h1, dif_neg hn, if_neg h3, if_pos h4]
      simp
  | case5 f tail offset acc budget st bytes f' hres h1 hn h3 h4 st2 acc2 hinner =>
      intro hbud
      rw [file_search_loop_eq hres, if_neg h1, dif_neg hn, if_neg h3, if_neg h4,
        hinner]
      exact (search_inner_budget_le p0 prest (tail ++ bytes)
        (tail ++ bytes).length offset endo cb 0 (tail ++ bytes).length acc
        budget hbud).1 st2 acc2 hinner
  | case6 f tail offset acc budget st bytes f' hres h1 hn h3 h4 acc2 bud2 rem2
      hinner ih =>
      intro hbud
      rw [file_search_loop_eq hres, if_neg h1, dif_neg hn, if_neg h3, if_neg h4,
        hinner]
      simp only []
      have hc := (search_inner_budget_le p0 prest (tail ++ bytes)
        (tail ++ bytes).length offset endo cb 0 (tail ++ bytes).length acc
        budget hbud).2 acc2 bud2 rem2 hinner
      have := ih hc.1
      omega


theorem occurAt_append_left {xs ys pat : List Nat} {i : Nat}
    (hle : i + pat.length ≤ xs.length) :
    occurAt (xs ++ ys) pat i ↔ occurAt xs pat i := by
  unfold occurAt
  rw [List.drop_append_of_le_length (by omega)]
  rw [List.take_append_of_le_length (by simp [List.length_drop]; omega)]

theorem occurAt_append_right {xs ys pat : List Nat} {j : Nat} :
    occurAt (xs ++ ys) pat (xs.length + j) ↔ occurAt ys pat j := by
  unfold occurAt
  rw [List.drop_append]

/-- Completeness of `mb_memmem`: a minimal occurrence is found. -/
theorem mb_memmem_some_of {l pat : List Nat} {i : Nat} (hp : pat ≠ [])
    (hocc : occurAt l pat i) (hmin : ∀ j, j < i → ¬ occurAt l pat j) :
    mb_memmem l pat = some i := by
  cases h : mb_memmem l pat with
  | none => exact absurd hocc (mb_memmem_none h i)
  | some j =>
      have h1 := mb_memmem_occur h
      have h2 := mb_memmem_first h
      have e : j = i := by
        by_contra hne
        rcases Nat.lt_or_ge j i with hlt | hge
        · exact hmin j hlt h1
        · exact h2 i (by omega) hocc
      rw [e]

/-- The first occurrence in a list is still the first occurrence after
appending a continuation. -/
theorem mb_memmem_append_some {u rest pat : List Nat} {i : Nat}
    (hp : pat ≠ []) (h : mb_memmem u pat = some i) :
    mb_memmem (u ++ rest) pat = some i := by
  have hocc := mb_memmem_occur h
  have hle := mb_memmem_le hp h
  apply mb_memmem_some_of hp ((occurAt_append_left hle).mpr hocc)
  intro j hj hjo
  have hjle : j + pat.length ≤ u.length := by omega
  exact mb_memmem_first h j hj ((occurAt_append_left hjle).mp hjo)

theorem drop_append_ge {xs ys : List Nat} {k : Nat} (h : xs.length ≤ k) :
    (xs ++ ys).drop k = ys.drop (k - xs.length) := by
  have e : k = xs.length + (k - xs.length) := by omega
  rw [e, List.drop_append]
  congr 1
  omega

theorem take_append_drop_len (l : List Nat) (k : Nat) :
    l.take k ++ l.drop (l.take k).length = l := by
  rw [List.length_take]
  by_cases h : k ≤ l.length
  · rw [min_eq_left h, List.take_append_drop]
  · rw [min_eq_right (by omega), List.drop_length,
      List.take_of_length_le (by omega)]
    simp

/-- Discarding everything but the last `pattern_size - 1` bytes of a
match-free block changes no occurrence of the pattern in the
continuation: the greedy count over the block glued to the rest equals
that over the retained tail glued to the rest. -/
theorem greedy_discard {p0 : Nat} {prest u rest : List Nat}
    (hnone : mb_memmem u (p0 :: prest) = none) :
    greedyCount (p0 :: prest) (u ++ rest)
      = greedyCount (p0 :: prest)
          (u.drop (u.length - min u.length prest.length) ++ rest) := by
  have hq : (u.take (u.length - min u.length prest.length)).length
      = u.length - min u.length prest.length := by
    simp [List.length_take]
  have hsplit : u ++ rest
      = u.take (u.length - min u.length prest.length)
        ++ (u.drop (u.length - min u.length prest.length) ++ rest) := by
    rw [← List.append_assoc, List.take_append_drop]
  have hcorr : ∀ j, occurAt (u.drop (u.length - min u.length prest.length)
        ++ rest) (p0 :: prest) j
      ↔ occurAt (u ++ rest) (p0 :: prest)
          (u.length - min u.length prest.length + j) := by
    intro j
    rw [hsplit]
    rw [show u.length - min u.length prest.length + j
        = (u.take (u.length - min u.length prest.length)).length + j by
      rw [hq]]
    exact occurAt_append_right.symm
  have hlow : ∀ j, occurAt (u ++ rest) (p0 :: prest) j →
      u.length - min u.length prest.length ≤ j := by
    intro j hocc
    by_contra hlt
    push_neg at hlt
    have hle : j + (p0 :: prest).length ≤ u.length := by
      simp only [List.length_cons]
      omega
    exact mb_memmem_none hnone j ((occurAt_append_left hle).mp hocc)
  cases hbig : mb_memmem (u ++ rest) (p0 :: prest) with
  | none =>
      cases hsml : mb_memmem (u.drop (u.length - min u.length prest.length)
          ++ rest) (p0 :: prest) with
      | none => rw [greedyCount_eq_none hbig, greedyCount_eq_none hsml]
      | some j =>
          exact absurd ((hcorr j).mp (mb_memmem_occur hsml))
            (mb_memmem_none hbig _)
  | some j =>
      have hocc := mb_memmem_occur hbig
      have hfirst := mb_memmem_first hbig
      have hjq := hlow j hocc
      have hnotin : u.length < j + (prest.length + 1) := by
        by_contra hle
        push_neg at hle
        exact mb_memmem_none hnone j
          ((occurAt_append_left (by simp only [List.length_cons]; omega)).mp
            hocc)
      have hsml : mb_memmem (u.drop (u.length - min u.length prest.length)
          ++ rest) (p0 :: prest)
          = some (j - (u.length - min u.length prest.length)) := by
        apply mb_memmem_some_of (by simp)
        · rw [hcorr]
          rw [show u.length - min u.length prest.length
              + (j - (u.length - min u.length prest.length)) = j by omega]
          exact hocc
        · intro j2 hj2 hocc2
          have := (hcorr j2).mp hocc2
          exact hfirst _ (by omega) this
      rw [greedyCount_eq_some hbig, greedyCount_eq_some hsml]
      congr 1
      have hd1 : (u ++ rest).drop (j + (prest.length + 1))
          = rest.drop (j + (prest.length + 1) - u.length) :=
        drop_append_ge (by omega)
      have hd2 : (u.drop (u.length - min u.length prest.length) ++ rest).drop
            (j - (u.length - min u.length prest.length) + (prest.length + 1))
          = rest.drop (j - (u.length - min u.length prest.length)
              + (prest.length + 1)
              - (u.drop (u.length - min u.length prest.length)).length) :=
        drop_append_ge (by simp [List.length_drop]; omega)
      rw [hd1, hd2]
      congr 1
      rw [List.length_drop]
      have hminle : min u.length prest.length ≤ u.length := Nat.min_le_left _ _
      generalize hM : min u.length prest.length = M at hjq hminle ⊢
      congr 1
      omega

/-- Window scan against the rest of the stream: scanning a fully valid
window `w` that the stream continues with `rest`, under the always-`OK`
callback and no `end` boundary, the scan accounts exactly for the
greedy matches of the whole stream `w ++ rest` — a `done` outcome means
the budget was exhausted with at least that many stream matches, and a
`cont` outcome has reported `g < budget` matches with the remaining
stream matches all occurring past the retained tail. -/
theorem search_inner_stream (p0 : Nat) (prest w rest : List Nat)
    (n offset : Nat) (m remain : Nat) (acc : List Nat) (budget : Int) :
    m + remain = n → n = w.length → 0 < budget →
    (∀ st acc',
      search_inner p0 prest w n offset (-1) (fun _ _ => .OK) m remain acc
        budget = .done st acc' →
      st = .OK ∧ acc'.length = acc.length + budget.toNat ∧
        budget.toNat ≤ greedyCount (p0 :: prest) (w.drop m ++ rest)) ∧
    (∀ acc' bud rem,
      search_inner p0 prest w n offset (-1) (fun _ _ => .OK) m remain acc
        budget = .cont acc' bud rem →
      ∃ g, acc'.length = acc.length + g ∧ g < budget.toNat ∧
        bud = budget - (g : Int) ∧
        greedyCount (p0 :: prest) (w.drop m ++ rest)
          = g + greedyCount (p0 :: prest)
              (w.drop (w.length - min rem prest.length) ++ rest)) := by
  induction m, remain, acc, budget
    using search_inner.induct p0 prest w n offset (-1) (fun _ _ => .OK) with
  | case1 m remain acc budget hmm =>
      intro hmn hnb hbud
      have htr : (w.drop m).take remain = w.drop m :=
        List.take_of_length_le (by simp [List.length_drop]; omega)
      have hmm2 := hmm
      rw [htr] at hmm2
      have hstep := @search_inner_eq_none p0 prest w n offset (-1)
        (fun _ _ => .OK) m remain acc budget hmm
      refine ⟨?_, ?_⟩
      · intro st acc' h
        rw [hstep] at h
        simp at h
      · intro acc' bud rem h
        rw [hstep] at h
        simp only [InnerRes.cont.injEq] at h
        obtain ⟨h1, h2, h3⟩ := h
        have hlen : (w.drop m).length = remain := by
          simp [List.length_drop]
          omega
        have hgd := @greedy_discard p0 prest (w.drop m) rest hmm2
        have e : (w.drop m).drop
              ((w.drop m).length - min (w.drop m).length prest.length)
            = w.drop (w.length - min rem prest.length) := by
          rw [List.drop_drop, hlen]
          congr 1
          have : min remain prest.length ≤ remain := Nat.min_le_left _ _
          omega
        rw [e] at hgd
        refine ⟨0, by rw [← h1]; omega, by omega, by rw [← h2]; simp, by omega⟩
  | case2 m remain acc budget i hmm hend =>
      intro hmn hnb hbud
      exact absurd hend (by omega)
  | case3 m remain acc budget i hmm hend hwarn =>
      intro hmn hnb hbud
      simp at hwarn
  | case4 m remain acc budget i hmm hend hwarn hbad =>
      intro hmn hnb hbud
      simp [FileStatus.toInt] at hbad
  | case5 m remain acc budget i hmm hend hwarn hbad hbud5 =>
      intro hmn hnb hbud
      have htr : (w.drop m).take remain = w.drop m :=
        List.take_of_length_le (by simp [List.length_drop]; omega)
      have hmm2 := hmm
      rw [htr] at hmm2
      have hext := @mb_memmem_append_some (w.drop m) rest (p0 :: prest) i
        (by simp) hmm2
      have hgs := greedyCount_eq_some hext
      have hstep := @search_inner_eq_some p0 prest w n offset (-1)
        (fun _ _ => .OK) m remain acc budget i hmm
      rw [if_neg hend, if_neg hwarn, if_neg hbad, if_pos hbud5] at hstep
      refine ⟨?_, ?_⟩
      · intro st acc' h
        rw [hstep] at h
        simp only [InnerRes.done.injEq] at h
        refine ⟨h.1.symm, ?_, ?_⟩
        · rw [← h.2]
          simp [List.length_append]
          omega
        · rw [hgs]
          omega
      · intro acc' bud rem h
        rw [hstep] at h
        simp at h
  | case6 m remain acc budget i hmm hend hwarn hbad hbud6 hrem ih =>
      intro hmn hnb hbud
      have htr : (w.drop m).take remain = w.drop m :=
        List.take_of_length_le (by simp [List.length_drop]; omega)
      have hmm2 := hmm
      rw [htr] at hmm2
      have hb := mb_memmem_le (by simp) hmm
      simp [List.length_take, List.length_drop] at hb
      have hext := @mb_memmem_append_some (w.drop m) rest (p0 :: prest) i
        (by simp) hmm2
      have hgs := greedyCount_eq_some hext
      have hdrop : (w.drop m ++ rest).drop (i + (prest.length + 1))
          = w.drop (m + i + (prest.length + 1)) ++ rest := by
        rw [List.drop_append_of_le_length (by simp [List.length_drop]; omega)]
        congr 1
        rw [List.drop_drop]
        congr 1
        omega
      rw [hdrop] at hgs
      have hstep := @search_inner_eq_some p0 prest w n offset (-1)
        (fun _ _ => .OK) m remain acc budget i hmm
      rw [if_neg hend, if_neg hwarn, if_neg hbad, if_neg hbud6, if_pos hrem,
        if_pos hbud] at hstep
      simp only [dite_eq_ite, if_pos hbud] at ih
      have hrec := ih (by omega) hnb (by omega)
      refine ⟨?_, ?_⟩
      · intro st acc' h
        rw [hstep] at h
        obtain ⟨h1, h2, h3⟩ := hrec.1 st acc' h
        refine ⟨h1, ?_, ?_⟩
        · simp [List.length_append] at h2
          omega
        · rw [hgs]
          omega
      · intro acc' bud rem h
        rw [hstep] at h
        obtain ⟨g, hg1, hg2, hg3, hg4⟩ := hrec.2 acc' bud rem h
        refine ⟨g + 1, ?_, ?_, ?_, ?_⟩
        · simp [List.length_append] at hg1
          omega
        · omega
        · rw [hg3]
          push_cast
          ring
        · rw [hgs, hg4]
          omega
  | case7 m remain acc budget i hmm hend hwarn hbad hbud6 hrem =>
      intro hmn hnb hbud
      exfalso
      have hb := mb_memmem_le (by simp) hmm
      simp [List.length_take, List.length_drop] at hb
      omega

/-- The sliding-window loop on a clean seekable handle with the
always-`OK` callback and no `end` boundary succeeds and reports exactly
`min budget (greedy matches of the remaining stream)` new offsets, for
any buffer size at least the pattern size and any window fill state. -/
theorem file_search_loop_clean_greedy (p0 : Nat) (prest : List Nat)
    (bsize : Nat) (d : List Nat) (hps : prest.length + 1 ≤ bsize) :
    ∀ (fuel p : Nat) (t : List Nat) (offset : Nat) (acc : List Nat)
      (b : Int), d.length - p ≤ fuel → t.length ≤ prest.length → 0 < b →
      offset + (t.length + (d.length - p)) ≤ UINT64_MAX →
      (file_search_loop p0 prest (-1) (fun _ _ => .OK) bsize
          ⟨d, p, true, [], none⟩ t offset acc b).1 = .OK ∧
      (file_search_loop p0 prest (-1) (fun _ _ => .OK) bsize
          ⟨d, p, true, [], none⟩ t offset acc b).2.1.length
        = acc.length
          + min b.toNat (greedyCount (p0 :: prest) (t ++ d.drop p)) := by
  have hnone_short : ∀ l : List Nat, l.length < prest.length + 1 →
      mb_memmem l (p0 :: prest) = none := by
    intro l hl
    cases h : mb_memmem l (p0 :: prest) with
    | none => rfl
    | some i =>
        have := mb_memmem_le (by simp) h
        simp at this
        omega
  intro fuel
  induction fuel with
  | zero =>
      intro p t offset acc b hfuel ht hb hover
      have hdp : d.drop p = [] := List.drop_eq_nil_of_le (by omega)
      rw [file_search_loop_eq (file_read_fully_clean d p true none
        (bsize - t.length))]
      rw [if_neg (by simp [FileStatus.toInt])]
      rw [hdp, List.take_nil]
      rw [dif_pos (by simp; omega)]
      refine ⟨rfl, ?_⟩
      rw [greedyCount_eq_none (hnone_short _ (by simp; omega))]
      simp
  | succ fN ih =>
      intro p t offset acc b hfuel ht hb hover
      rw [file_search_loop_eq (file_read_fully_clean d p true none
        (bsize - t.length))]
      rw [if_neg (by simp [FileStatus.toInt])]
      have hblen : ((d.drop p).take (bsize - t.length)).length
          = min (bsize - t.length) (d.length - p) := by
        simp [List.length_take, List.length_drop]
      by_cases hn : (t ++ (d.drop p).take (bsize - t.length)).length
          < prest.length + 1
      · rw [dif_pos hn]
        refine ⟨rfl, ?_⟩
        have hstream : (t ++ d.drop p).length < prest.length + 1 := by
          simp [List.length_append, hblen] at hn
          simp [List.length_append, List.length_drop]
          omega
        rw [greedyCount_eq_none (hnone_short _ hstream)]
        simp
      · rw [dif_neg hn]
        rw [if_neg (by norm_num)]
        rw [if_neg (by simp only [List.length_append, hblen, not_lt]; omega)]
        have hsplit : t ++ d.drop p
            = (t ++ (d.drop p).take (bsize - t.length))
              ++ d.drop (p + ((d.drop p).take (bsize - t.length)).length) := by
          rw [List.append_assoc]
          congr 1
          have e2 : d.drop (p + ((d.drop p).take (bsize - t.length)).length)
              = (d.drop p).drop
                  (((d.drop p).take (bsize - t.length)).length) := by
            rw [List.drop_drop]
          rw [e2]
          exact (take_append_drop_len (d.drop p) (bsize - t.length)).symm
        have hinner := search_inner_stream p0 prest
          (t ++ (d.drop p).take (bsize - t.length))
          (d.drop (p + ((d.drop p).take (bsize - t.length)).length))
          (t ++ (d.drop p).take (bsize - t.length)).length offset 0
          (t ++ (d.drop p).take (bsize - t.length)).length acc b
          (by omega) rfl hb
        cases hres : search_inner p0 prest
            (t ++ (d.drop p).take (bsize - t.length))
            (t ++ (d.drop p).take (bsize - t.length)).length offset (-1)
            (fun _ _ => .OK) 0
            (t ++ (d.drop p).take (bsize - t.length)).length acc b with
        | done st acc' =>
            simp only []
            obtain ⟨h1, h2, h3⟩ := hinner.1 st acc' hres
            rw [List.drop_zero, ← hsplit] at h3
            refine ⟨h1, ?_⟩
            omega
        | cont acc' bud rem =>
            simp only []
            obtain ⟨g, hg1, hg2, hg3, hg4⟩ := hinner.2 acc' bud rem hres
            rw [List.drop_zero, ← hsplit] at hg4
            have hbytespos : 0 < ((d.drop p).take (bsize - t.length)).length := by
              simp [List.length_append] at hn
              omega
            have hrec := ih (p + ((d.drop p).take (bsize - t.length)).length)
              ((t ++ (d.drop p).take (bsize - t.length)).drop
                ((t ++ (d.drop p).take (bsize - t.length)).length
                  - min rem prest.length))
              (offset + ((t ++ (d.drop p).take (bsize - t.length)).length
                  - min rem prest.length))
              acc' bud
              (by omega)
              (by simp [List.length_drop]; omega)
              (by omega)
              (by simp [List.length_drop, List.length_append, hblen]; omega)
            refine ⟨hrec.1, ?_⟩
            rw [hrec.2]
            rw [hg4]
            have hbt : bud.toNat = b.toNat - g := by omega
            rw [hbt]
            omega

/-- C6: with `max_matches = 0` the search succeeds immediately with no
callback invocations; with `max_matches = k > 0` at most `k` callback
invocations ever occur, for every handle and callback; and on a clean
seekable handle scanned with the always-`OK` callback — any buffer size
at least the pattern size, across as many window refills as needed —
exactly `min k total_matches` invocations occur, where `total_matches`
is the greedy count of non-overlapping occurrences in the content, the
search reporting success whether the budget or the content runs out
first. -/
theorem claim_C6_match_budget :
    (∀ (f : File) (start endo : Int) (bsize : Nat) (pat : List Nat)
        (cb : List Nat → Nat → FileStatus),
      ¬(0 ≤ start ∧ 0 ≤ endo ∧ endo < start) →
      file_search f start endo bsize pat 0 cb = (.OK, [], f)) ∧
    (∀ (f : File) (start endo : Int) (bsize : Nat) (pat : List Nat)
        (cb : List Nat → Nat → FileStatus) (k : Int), 0 < k →
      (file_search f start endo bsize pat k cb).2.1.length ≤ k.toNat) ∧
    (∀ (d pat : List Nat) (bsize : Nat) (k : Int), 0 < k → pat ≠ [] →
      pat.length ≤ searchBufSize bsize pat.length → d.length ≤ UINT64_MAX →
      (file_search ⟨d, 0, true, [], none⟩ (-1) (-1) bsize pat k
          (fun _ _ => .OK)).1 = .OK ∧
      (file_search ⟨d, 0, true, [], none⟩ (-1) (-1) bsize pat k
          (fun _ _ => .OK)).2.1.length = min k.toNat (greedyCount pat d)) := by
  refine ⟨?_, ?_, ?_⟩
  · intro f start endo bsize pat cb h
    rw [file_search.eq_def, if_neg h]
    cases pat with
    | nil => rfl
    | cons p0 prest => simp
  · intro f start endo bsize pat cb k hk
    rcases file_search_cases f start endo bsize pat k cb
      with h | ⟨p0, prest, bs, f1, off, hpat, heq⟩
    · rw [h]
      simp
    · rw [heq]
      have := file_search_loop_budget_le p0 prest endo cb bs f1 [] off [] k hk
      simpa using this
  · intro d pat bsize k hk hpne hpb hdu
    cases pat with
    | nil => exact absurd rfl hpne
    | cons p0 prest =>
    have hred : file_search ⟨d, 0, true, [], none⟩ (-1) (-1) bsize
          (p0 :: prest) k (fun _ _ => .OK)
        = file_search_loop p0 prest (-1) (fun _ _ => .OK)
            (searchBufSize bsize (p0 :: prest).length)
            ⟨d, 0, true, [], none⟩ [] 0 [] k := by
      rw [file_search]
      rw [if_neg (by norm_num)]
      simp only []
      rw [if_neg (by omega)]
      rw [if_neg (not_lt.mpr hpb)]
      have hss0 : searchStart (-1) = 0 := by decide
      rw [hss0, seek_clean]
      simp only []
      rw [if_neg (by simp)]
      rw [if_neg (by simp [FileStatus.toInt])]
    rw [hred]
    have hmain := file_search_loop_clean_greedy p0 prest
      (searchBufSize bsize (p0 :: prest).length) d (by simpa using hpb)
      d.length 0 [] 0 [] k (by omega) (by simp) hk (by simpa using hdu)
    refine ⟨hmain.1, ?_⟩
    rw [hmain.2]
    simp

/-- C6 witness: pattern `[7]` in `[7, 7, 7]` with budget 2 — three
matches exist, two are reported. -/
theorem claim_C6_match_budget_witness :
    (file_search ⟨[7, 7, 7], 0, true, [], none⟩ (-1) (-1) 4 [7] 2
        (fun _ _ => .OK)).1 = .OK ∧
    (file_search ⟨[7, 7, 7], 0, true, [], none⟩ (-1) (-1) 4 [7] 2
        (fun _ _ => .OK)).2.1.length
      = min (2 : Int).toNat (greedyCount [7] [7, 7, 7]) :=
  claim_C6_match_budget.2.2 [7, 7, 7] [7] 4 2 (by decide) (by decide)
    (by decide) (by norm_num [UINT64_MAX])

/-- Every callback invocation recorded in `l` (the `k`-th invocation
receives the history `l.take k` and the offset `l.get k`) answered
neither `WARN` nor a status worse than `OK`, i.e. the search was never
asked to stop. -/
def cbContinue (cb : List Nat → Nat → FileStatus) (l : List Nat) : Prop :=
  ∀ k o, l.get? k = some o →
    cb (l.take k) o ≠ .WARN ∧ 0 ≤ (cb (l.take k) o).toInt

/-- The stop protocol of the search callback over the invocation
sequence `l` and the final status `st`: whenever some invocation — at
any position, after arbitrary earlier answers — returns `WARN`, it is
the last invocation and the overall status is `OK`; whenever an
invocation returns a status worse than `OK` (other than `WARN`), it is
the last invocation and the overall status is that failure. -/
def cbStopSpec (cb : List Nat → Nat → FileStatus) (l : List Nat)
    (st : FileStatus) : Prop :=
  ∀ k o, l.get? k = some o →
    (cb (l.take k) o = .WARN → k + 1 = l.length ∧ st = .OK) ∧
    (cb (l.take k) o ≠ .WARN → (cb (l.take k) o).toInt < 0 →
      k + 1 = l.length ∧ st = cb (l.take k) o)

theorem cbContinue_nil (cb : List Nat → Nat → FileStatus) :
    cbContinue cb [] :=
  fun _ _ ho => absurd ho (by simp)

theorem cbStopSpec_of_continue {cb : List Nat → Nat → FileStatus}
    {l : List Nat} {st : FileStatus} (h : cbContinue cb l) :
    cbStopSpec cb l st :=
  fun k o ho =>
    ⟨fun hw => absurd hw (h k o ho).1,
      fun _ hb => absurd hb (not_lt.mpr (h k o ho).2)⟩

theorem cbContinue_snoc {cb : List Nat → Nat → FileStatus} {acc : List Nat}
    {x : Nat} (h : cbContinue cb acc) (hw : cb acc x ≠ .WARN)
    (hb : 0 ≤ (cb acc x).toInt) : cbContinue cb (acc ++ [x]) := by
  intro k o ho
  rcases Nat.lt_trichotomy k acc.length with hk | hk | hk
  · rw [List.get?_append hk] at ho
    rw [List.take_append_of_le_length (le_of_lt hk)]
    exact h k o ho
  · subst hk
    rw [List.get?_concat_length] at ho
    simp only [Option.some.injEq] at ho
    subst ho
    rw [List.take_left]
    exact ⟨hw, hb⟩
  · rw [List.get?_eq_none.mpr (by simp; omega)] at ho
    exact absurd ho (by simp)

theorem cbStopSpec_snoc_warn {cb : List Nat → Nat → FileStatus}
    {acc : List Nat} {x : Nat} (h : cbContinue cb acc)
    (hw : cb acc x = .WARN) : cbStopSpec cb (acc ++ [x]) .OK := by
  intro k o ho
  rcases Nat.lt_trichotomy k acc.length with hk | hk | hk
  · rw [List.get?_append hk] at ho
    rw [List.take_append_of_le_length (le_of_lt hk)]
    exact ⟨fun hww => absurd hww (h k o ho).1,
      fun _ hbb => absurd hbb (not_lt.mpr (h k o ho).2)⟩
  · subst hk
    rw [List.get?_concat_length] at ho
    simp only [Option.some.injEq] at ho
    subst ho
    rw [List.take_left]
    exact ⟨fun _ => ⟨by simp, rfl⟩, fun hnw _ => absurd hw hnw⟩
  · rw [List.get?_eq_none.mpr (by simp; omega)] at ho
    exact absurd ho (by simp)

theorem cbStopSpec_snoc_bad {cb : List Nat → Nat → FileStatus}
    {acc : List Nat} {x : Nat} (h : cbContinue cb acc)
    (hw : cb acc x ≠ .WARN) (hb : (cb acc x).toInt < 0) :
    cbStopSpec cb (acc ++ [x]) (cb acc x) := by
  intro k o ho
  rcases Nat.lt_trichotomy k acc.length with hk | hk | hk
  · rw [List.get?_append hk] at ho
    rw [List.take_append_of_le_length (le_of_lt hk)]
    exact ⟨fun hww => absurd hww (h k o ho).1,
      fun _ hbb => absurd hbb (not_lt.mpr (h k o ho).2)⟩
  · subst hk
    rw [List.get?_concat_length] at ho
    simp only [Option.some.injEq] at ho
    subst ho
    rw [List.take_left]
    exact ⟨fun hww => absurd hww hw, fun _ _ => ⟨by simp, rfl⟩⟩
  · rw [List.get?_eq_none.mpr (by simp; omega)] at ho
    exact absurd ho (by simp)

/-- The inner match loop obeys the callback stop protocol for every
callback: starting from a history of continuing answers, a `done`
outcome's invocation sequence satisfies the stop protocol with the
returned status, and a `cont` outcome's history is again all-continuing. -/
theorem search_inner_cb (p0 : Nat) (prest buffer : List Nat) (n offset : Nat)
    (endo : Int) (cb : List Nat → Nat → FileStatus) (m remain : Nat)
    (acc : List Nat) (budget : Int) :
    cbContinue cb acc →
    (∀ st acc',
      search_inner p0 prest buffer n offset endo cb m remain acc budget
        = .done st acc' → cbStopSpec cb acc' st) ∧
    (∀ acc' bud rem,
      search_inner p0 prest buffer n offset endo cb m remain acc budget
        = .cont acc' bud rem → cbContinue cb acc') := by
  induction m, remain, acc, budget
    using search_inner.induct p0 prest buffer n offset endo cb with
  | case1 m remain acc budget hmm =>
      intro hOK
      have hstep := @search_inner_eq_none p0 prest buffer n offset endo cb m
        remain acc budget hmm
      refine ⟨?_, ?_⟩
      · intro st acc' h
        rw [hstep] at h
        simp at h
      · intro acc' bud rem h
        rw [hstep] at h
        simp only [InnerRes.cont.injEq] at h
        rw [← h.1]
        exact hOK
  | case2 m remain acc budget i hmm hend =>
      intro hOK
      have hstep := @search_inner_eq_some p0 prest buffer n offset endo cb m
        remain acc budget i hmm
      rw [if_pos hend] at hstep
      refine ⟨?_, ?_⟩
      · intro st acc' h
        rw [hstep] at h
        simp only [InnerRes.done.injEq] at h
        rw [← h.1, ← h.2]
        exact cbStopSpec_of_continue hOK
      · intro acc' bud rem h
        rw [hstep] at h
        simp at h
  | case3 m remain acc budget i hmm hend hwarn =>
      intro hOK
      have hstep := @search_inner_eq_some p0 prest buffer n offset endo cb m
        remain acc budget i hmm
      rw [if_neg hend, if_pos hwarn] at hstep
      refine ⟨?_, ?_⟩
      · intro st acc' h
        rw [hstep] at h
        simp only [InnerRes.done.injEq] at h
        rw [← h.1, ← h.2]
        exact cbStopSpec_snoc_warn hOK hwarn
      · intro acc' bud rem h
        rw [hstep] at h
        simp at h
  | case4 m remain acc budget i hmm hend hwarn hbad =>
      intro hOK
      have hstep := @search_inner_eq_some p0 prest buffer n offset endo cb m
        remain acc budget i hmm
      rw [if_neg hend, if_neg hwarn, if_pos hbad] at hstep
      refine ⟨?_, ?_⟩
      · intro st acc' h
        rw [hstep] at h
        simp only [InnerRes.done.injEq] at h
        rw [← h.1, ← h.2]
        exact cbStopSpec_snoc_bad hOK hwarn hbad
      · intro acc' bud rem h
        rw [hstep] at h
        simp at h
  | case5 m remain acc budget i hmm hend hwarn hbad hbud5 =>
      intro hOK
      have hstep := @search_inner_eq_some p0 prest buffer n offset endo cb m
        remain acc budget i hmm
      rw [if_neg hend, if_neg hwarn, if_neg hbad, if_pos hbud5] at hstep
      refine ⟨?_, ?_⟩
      · intro st acc' h
        rw [hstep] at h
        simp only [InnerRes.done.injEq] at h
        rw [← h.1, ← h.2]
        exact cbStopSpec_of_continue
          (cbContinue_snoc hOK hwarn (not_lt.mp hbad))
      · intro acc' bud rem h
        rw [hstep] at h
        simp at h
  | case6 m remain acc budget i hmm hend hwarn hbad hbud6 hrem ih =>
      intro hOK
      have hstep := @search_inner_eq_some p0 prest buffer n offset endo cb m
        remain acc budget i hmm
      rw [if_neg hend, if_neg hwarn, if_neg hbad, if_neg hbud6,
        if_pos hrem] at hstep
      simp only [dite_eq_ite] at ih
      have hrec := ih (cbContinue_snoc hOK hwarn (not_lt.mp hbad))
      rw [hstep]
      exact hrec
  | case7 m remain acc budget i hmm hend hwarn hbad hbud6 hrem =>
      intro hOK
      have hstep := @search_inner_eq_some p0 prest buffer n offset endo cb m
        remain acc budget i hmm
      rw [if_neg hend, if_neg hwarn, if_neg hbad, if_neg hbud6,
        if_neg hrem] at hstep
      refine ⟨?_, ?_⟩
      · intro st acc' h
        rw [hstep] at h
        simp at h
      · intro acc' bud rem h
        rw [hstep] at h
        simp only [InnerRes.cont.injEq] at h
        rw [← h.1]
        exact cbContinue_snoc hOK hwarn (not_lt.mp hbad)

/-- The sliding-window loop obeys the callback stop protocol for every
callback and every handle, across window refills. -/
theorem file_search_loop_cb (p0 : Nat) (prest : List Nat) (endo : Int)
    (cb : List Nat → Nat → FileStatus) (buf_size : Nat) (f : File)
    (tail : List Nat) (offset : Nat) (acc : List Nat) (budget : Int) :
    cbContinue cb acc →
    cbStopSpec cb
      (file_search_loop p0 prest endo cb buf_size f tail offset acc
        budget).2.1
      (file_search_loop p0 prest endo cb buf_size f tail offset acc
        budget).1 := by
  induction f, tail, offset, acc, budget
    using file_search_loop.induct p0 prest endo cb buf_size with
  | case1 f tail offset acc budget st bytes f' hres h1 =>
      intro hOK
      rw [file_search_loop_eq hres, if_pos h1]
      exact cbStopSpec_of_continue hOK
  | case2 f tail offset acc budget st bytes f' hres h1 hn =>
      intro hOK
      rw [file_search_loop_eq hres, if_neg h1, dif_pos hn]
      exact cbStopSpec_of_continue hOK
  | case3 f tail offset acc budget st bytes f' hres h1 hn h3 =>
      intro hOK
      rw [file_search_loop_eq hres, if_neg h1, dif_neg hn, if_pos h3]
      exact cbStopSpec_of_continue hOK
  | case4 f tail offset acc budget st bytes f' hres h1 hn h3 h4 =>
      intro hOK
      rw [file_search_loop_eq hres, if_neg h1, dif_neg hn, if_neg h3, if_pos h4]
      exact cbStopSpec_of_continue hOK
  | case5 f tail offset acc budget st bytes f' hres h1 hn h3 h4 st2 acc2 hinner =>
      intro hOK
      rw [file_search_loop_eq hres, if_neg h1, dif_neg hn, if_neg h3, if_neg h4,
        hinner]
      exact (search_inner_cb p0 prest (tail ++ bytes) (tail ++ bytes).length
        offset endo cb 0 (tail ++ bytes).length acc budget hOK).1 st2 acc2
        hinner
  | case6 f tail offset acc budget st bytes f' hres h1 hn h3 h4 acc2 bud2 rem2
      hinner ih =>
      intro hOK
      rw [file_search_loop_eq hres, if_neg h1, dif_neg hn, if_neg h3, if_neg h4,
        hinner]
      simp only []
      exact ih ((search_inner_cb p0 prest (tail ++ bytes)
        (tail ++ bytes).length offset endo cb 0 (tail ++ bytes).length acc
        budget hOK).2 acc2 bud2 rem2 hinner)

/-- C5: for every handle, range, pattern, budget and callback — the
callback a pure function of the history of previously reported offsets
and the new match offset — the invocation sequence of `file_search`
obeys the stop protocol: if the callback returns `WARN` on some match,
possibly after arbitrary earlier answers, that invocation is the last
one (the search stops immediately) and the call reports overall
success `OK`; if it returns a status worse than `OK` (`WARN` apart),
that invocation is the last one and the call aborts with that status.
Two concrete scenarios: a constant-`WARN` callback on
`"ababababab"`/`"abab"` is invoked exactly once, at offset 0, the
second match never reported, and the call returns `OK`; a callback
answering `OK` on the first invocation and `WARN` afterwards on
`"ababab"`/`"ab"` is invoked exactly twice (offsets 0 and 2), the
third match never reported, and the call returns `OK`. -/
theorem claim_C5_warn_semantics :
    (∀ (f : File) (start endo : Int) (bsize : Nat) (pat : List Nat) (mm : Int)
        (cb : List Nat → Nat → FileStatus),
      cbStopSpec cb (file_search f start endo bsize pat mm cb).2.1
        (file_search f start endo bsize pat mm cb).1) ∧
    (file_search ⟨[97, 98, 97, 98, 97, 98, 97, 98, 97, 98], 0, true, [], none⟩
        (-1) (-1) 16 [97, 98, 97, 98] (-1) (fun _ _ => .WARN))
      = (.OK, [0],
          ⟨[97, 98, 97, 98, 97, 98, 97, 98, 97, 98], 10, true, [], none⟩) ∧
    (file_search ⟨[97, 98, 97, 98, 97, 98], 0, true, [], none⟩ (-1) (-1) 16
        [97, 98] (-1)
        (fun hist _ => if hist.length = 0 then .OK else .WARN))
      = (.OK, [0, 2], ⟨[97, 98, 97, 98, 97, 98], 6, true, [], none⟩) := by
  refine ⟨?_, ?_, ?_⟩
  · intro f start endo bsize pat mm cb
    rcases file_search_cases f start endo bsize pat mm cb
      with h | ⟨p0, prest, bs, f1, off, hpat, heq⟩
    · have hc : cbContinue cb (file_search f start endo bsize pat mm cb).2.1 := by
        rw [h]
        exact cbContinue_nil cb
      exact cbStopSpec_of_continue hc
    · rw [heq]
      exact file_search_loop_cb p0 prest endo cb bs f1 [] off [] mm
        (cbContinue_nil cb)
  · rw [file_search]
    simp [File.seek, FileStatus.toInt, searchBufSize, searchStart]
    rw [file_search_loop_eq (file_read_fully_clean _ _ _ _ _)]
    simp [FileStatus.toInt, UINT64_MAX, searchBufSize, searchStart]
    have hsome : mb_memmem ((([97, 98, 97, 98, 97, 98, 97, 98, 97, 98] :
        List Nat).drop 0).take 10) [97, 98, 97, 98] = some 0 := by decide
    rw [search_inner_eq_some hsome]
    simp [FileStatus.toInt]
  · rw [file_search]
    simp [File.seek, FileStatus.toInt, searchBufSize, searchStart]
    rw [file_search_loop_eq (file_read_fully_clean _ _ _ _ _)]
    simp [FileStatus.toInt, UINT64_MAX, searchBufSize, searchStart]
    have hsome1 : mb_memmem ((([97, 98, 97, 98, 97, 98] :
        List Nat).drop 0).take 6) [97, 98] = some 0 := by decide
    rw [search_inner_eq_some hsome1]
    simp [FileStatus.toInt]
    have hsome2 : mb_memmem ((([97, 98, 97, 98, 97, 98] :
        List Nat).drop 2).take 4) [97, 98] = some 0 := by decide
    rw [search_inner_eq_some hsome2]
    simp [FileStatus.toInt]

/-- C5 witness: the stop protocol applied to the OK-then-WARN scenario
— the second invocation (offset 2, after an `OK` answer at offset 0)
returns `WARN`, is the last invocation, and the call returns `OK`. -/
theorem claim_C5_warn_semantics_witness :
    1 + 1 = (file_search ⟨[97, 98, 97, 98, 97, 98], 0, true, [], none⟩ (-1)
        (-1) 16 [97, 98] (-1)
        (fun hist _ => if hist.length = 0 then .OK else .WARN)).2.1.length ∧
    (file_search ⟨[97, 98, 97, 98, 97, 98], 0, true, [], none⟩ (-1) (-1) 16
        [97, 98] (-1)
        (fun hist _ => if hist.length = 0 then .OK else .WARN)).1 = .OK := by
  have hgen := claim_C5_warn_semantics.1
    ⟨[97, 98, 97, 98, 97, 98], 0, true, [], none⟩ (-1) (-1) 16 [97, 98] (-1)
    (fun hist _ => if hist.length = 0 then .OK else .WARN)
  rw [claim_C5_warn_semantics.2.2] at hgen
  simp only [] at hgen
  have hres := (hgen 1 2 (by decide)).1 (by decide)
  refine ⟨?_, ?_⟩
  · rw [claim_C5_warn_semantics.2.2]
    exact hres.1
  · rw [claim_C5_warn_semantics.2.2]

end MbCommon
